import Mathlib

/-!
Verification of the smartRAG retrieval routing and execution engine.

This file gives a shallow embedding, in Lean 4, of the algorithmic core of
the repository:

* `src/backend/src/services/vector.ts` — text chunking, cosine similarity,
  similarity search (`VectorService`);
* `src/backend/src/services/ragRouter.ts` — strategy dispatch
  (`RAGRouterService.routeAndExecute`);
* `src/backend/src/services/strategies/*` — the strategy executors, in the
  revisions the specification describes (the session-scoped
  `VectorRAGStrategy`, and the row-based `GraphRAGStrategy` with the
  per-session graph-cache merge);
* the `GraphCache` merge semantics used by the graph strategy.

Conventions of the embedding:

* JavaScript strings are modelled as `List Char` in the chunking layer
  (UTF-16 code-unit subtleties are irrelevant to the claims) and as `String`
  in the strategy/router layer.
* JavaScript numbers used as indices/sizes are modelled as `ℤ` where a value
  can go negative in the source, `ℕ` otherwise.  Embedding vectors are
  modelled as `List ℚ` (every IEEE double is a rational); the one place a
  square root is taken lifts to `ℝ`.  A JavaScript `NaN` result (0/0) is
  modelled as `Option.none`.
* External collaborators (the language model, JSON serialisation, the
  database) are parameters of the embedded functions; a result additionally
  carries the number of language-model calls that were made, so that
  "makes no model call" is expressible.
* The `while` loop of `chunkByFixed` is modelled with explicit fuel:
  `none` means the loop did not finish within the given fuel.
-/

/-! ## Chunking engine (`vector.ts`) -/

/-- The character class of the JavaScript regexp `\s` (and of `String.trim`):
space, tab, line feed, vertical tab, form feed, carriage return, NBSP, BOM
and the Unicode space separators. -/
def isJsWs (c : Char) : Bool :=
  c = ' ' || c = '\t' || c = '\n' || c = '\x0b' || c = '\x0c' || c = '\r' ||
  c = ' ' || c = '﻿' || c = ' ' ||
  (' ' ≤ c && c ≤ ' ') ||
  c = ' ' || c = ' ' || c = ' ' || c = ' ' || c = '　'

/-- `text.replace(/\s+/g, " ")` (vector.ts line 56): every maximal run of
whitespace becomes a single space. -/
def collapseWs : List Char → List Char
  | [] => []
  | [c] => if isJsWs c then [' '] else [c]
  | c :: d :: rest =>
    if isJsWs c && isJsWs d then collapseWs (d :: rest)
    else (if isJsWs c then ' ' else c) :: collapseWs (d :: rest)

/-- JavaScript `String.prototype.trim`. -/
def trimWs (l : List Char) : List Char :=
  ((l.dropWhile isJsWs).reverse.dropWhile isJsWs).reverse

/-- `text.replace(/\s+/g, " ").trim()` — the `cleanText` of
`VectorService.chunkText` (vector.ts line 56). -/
def normalizeWs (l : List Char) : List Char :=
  trimWs (collapseWs l)

/-- JavaScript `String.prototype.slice(start, end)` with the ECMAScript
clamping rules for negative and out-of-range indices. -/
def jsSlice (l : List Char) (s e : ℤ) : List Char :=
  let len : ℤ := l.length
  let s' : ℤ := if s < 0 then max (len + s) 0 else min s len
  let e' : ℤ := if e < 0 then max (len + e) 0 else min e len
  (l.drop s'.toNat).take (e' - s').toNat

/-- One `while` iteration structure of `VectorService.chunkByFixed`
(vector.ts lines 75–88), with explicit fuel.  The loop body is

    const end = Math.min(start + maxSize, text.length);
    chunks.push(text.slice(start, end));
    start = end - overlap;
    if (start >= text.length) break;

`none` means the loop did not terminate within `fuel` iterations. -/
def chunkByFixedGo (text : List Char) (maxSize overlap : ℤ) :
    ℕ → ℤ → List (List Char) → Option (List (List Char))
  | 0, _, _ => none
  | Nat.succ fuel, start, chunks =>
    if start < (text.length : ℤ) then
      let e : ℤ := min (start + maxSize) (text.length : ℤ)
      let chunks' := chunks ++ [jsSlice text start e]
      let start' := e - overlap
      if (text.length : ℤ) ≤ start' then some chunks'
      else chunkByFixedGo text maxSize overlap fuel start' chunks'
    else some chunks

/-- `VectorService.chunkByFixed` (vector.ts lines 75–88). -/
def chunkByFixed (fuel : ℕ) (text : List Char) (maxSize overlap : ℤ) :
    Option (List (List Char)) :=
  chunkByFixedGo text maxSize overlap fuel 0 []

/-- A sentence terminator: the `[.!?]` of the regexp
`/(?<=[.!?])\s+/` (vector.ts line 95). -/
def isEnder (c : Char) : Bool :=
  c = '.' || c = '!' || c = '?'

/-- Does the (reversed) current piece end with a sentence terminator? -/
def headIsEnder : List Char → Bool
  | [] => false
  | p :: _ => isEnder p

/-- `text.split(/(?<=[.!?])\s+/g)` (vector.ts line 96): split after a
sentence terminator followed by a whitespace run; the run is consumed, the
terminator is kept.  `cur` is the current piece, reversed; the `skipping`
flag is set while the matched whitespace run is being consumed. -/
def splitSentGo : Bool → List Char → List Char → List (List Char) → List (List Char)
  | _, [], cur, acc => acc ++ [cur.reverse]
  | skipping, c :: rest, cur, acc =>
    if skipping && isJsWs c then splitSentGo true rest cur acc
    else if isJsWs c && headIsEnder cur then
      splitSentGo true rest [] (acc ++ [cur.reverse])
    else splitSentGo false rest (c :: cur) acc

/-- `text.split(/(?<=[.!?])\s+/).filter(s => s.trim())` (vector.ts line 96). -/
def splitSentences (l : List Char) : List (List Char) :=
  (splitSentGo false l [] []).filter (fun s => trimWs s ≠ [])

/-- `currentChunk.split(" ")` (vector.ts line 105): split at every single
space character; empty pieces are kept, exactly as in JavaScript. -/
def splitOnSpaceGo : List Char → List Char → List (List Char)
  | [], cur => [cur.reverse]
  | c :: rest, cur =>
    if c = ' ' then cur.reverse :: splitOnSpaceGo rest []
    else splitOnSpaceGo rest (c :: cur)

/-- `currentChunk.split(" ")`. -/
def splitOnSpace (l : List Char) : List (List Char) :=
  splitOnSpaceGo l []

/-- `words.join(" ")` (vector.ts line 106). -/
def joinSpace : List (List Char) → List Char
  | [] => []
  | [p] => p
  | p :: ps => p ++ ' ' :: joinSpace ps

/-- `Math.ceil(words.length * 0.1)` (vector.ts line 106), read as exact
arithmetic, i.e. `⌈n / 10⌉`.  (The source multiplies by the IEEE double
`0.1`, which can differ from exact `n/10` at a few lengths, e.g. 30; no
claim in this development depends on the exact cut point.) -/
def ceilTenth (n : ℕ) : ℕ :=
  (n + 9) / 10

/-- `VectorService.chunkBySentence` (vector.ts lines 94–118).  The fold
state is `(chunks, currentChunk)`. -/
def chunkBySentenceStep (maxSize : ℤ) (st : List (List Char) × List Char)
    (s : List Char) : List (List Char) × List Char :=
  let chunks := st.1
  let cur := st.2
  if (cur.length : ℤ) + (s.length : ℤ) > maxSize ∧ cur ≠ [] then
    let words := splitOnSpace cur
    let overlapBuffer := joinSpace (words.drop (words.length - ceilTenth words.length))
    (chunks ++ [trimWs cur], overlapBuffer ++ ' ' :: s)
  else
    (chunks, cur ++ (if cur ≠ [] then [' '] else []) ++ s)

/-- `VectorService.chunkBySentence` (vector.ts lines 94–118). -/
def chunkBySentence (text : List Char) (maxSize : ℤ) (_overlap : ℤ) :
    List (List Char) :=
  let sentences := splitSentences text
  let st := sentences.foldl (chunkBySentenceStep maxSize) ([], [])
  if trimWs st.2 ≠ [] then st.1 ++ [trimWs st.2] else st.1

/-- The lookahead class `[A-Z#]` of the regexp `/\n\n+|\n(?=[A-Z#])/`
(vector.ts line 126). -/
def isUpperOrHash (c : Char) : Bool :=
  ('A' ≤ c && c ≤ 'Z') || c = '#'

/-- `text.split(/\n\n+|\n(?=[A-Z#])/g)` (vector.ts line 126): split at runs
of two or more line feeds (consumed) or at a single line feed followed by an
upper-case letter or `#` (only the line feed is consumed).  `skipNl` is set
while the tail of a `\n\n+` run is being consumed; `cur` is the current
piece, reversed. -/
def splitParasGo : Bool → List Char → List Char → List (List Char) → List (List Char)
  | _, [], cur, acc => acc ++ [cur.reverse]
  | true, c :: rest, cur, acc =>
    if c = '\n' then splitParasGo true rest cur acc
    else splitParasGo false rest [c] acc
  | false, c :: rest, cur, acc =>
    if c = '\n' then
      match rest with
      | [] => acc ++ [(c :: cur).reverse]
      | d :: rest' =>
        if d = '\n' then splitParasGo true rest' [] (acc ++ [cur.reverse])
        else if isUpperOrHash d then splitParasGo false (d :: rest') [] (acc ++ [cur.reverse])
        else splitParasGo false (d :: rest') ('\n' :: cur) acc
    else splitParasGo false rest (c :: cur) acc
termination_by _ l => l.length

/-- `text.split(/\n\n+|\n(?=[A-Z#])/g).filter(p => p.trim())`
(vector.ts line 126). -/
def splitParas (l : List Char) : List (List Char) :=
  (splitParasGo false l [] []).filter (fun p => trimWs p ≠ [])

/-- The paragraph fold of `VectorService.chunkBySemantic`
(vector.ts lines 130–137). -/
def chunkBySemanticStep (maxSize : ℤ) (st : List (List Char) × List Char)
    (para : List Char) : List (List Char) × List Char :=
  let chunks := st.1
  let cur := st.2
  if (cur.length : ℤ) + (para.length : ℤ) > maxSize ∧ cur ≠ [] then
    (chunks ++ [trimWs cur], para)
  else
    (chunks, cur ++ (if cur ≠ [] then ['\n', '\n'] else []) ++ para)

/-- `VectorService.chunkBySemantic` (vector.ts lines 124–144). -/
def chunkBySemantic (text : List Char) (maxSize : ℤ) (_overlap : ℤ) :
    List (List Char) :=
  let paragraphs := splitParas text
  let st := paragraphs.foldl (chunkBySemanticStep maxSize) ([], [])
  if trimWs st.2 ≠ [] then st.1 ++ [trimWs st.2] else st.1

/-- The `strategy` field of `ChunkingOptions` (vector.ts lines 16–20). -/
inductive ChunkStrategy
  | semantic
  | fixed
  | sentence
deriving DecidableEq

/-- `ChunkingOptions` (vector.ts lines 16–20); absent fields are `none` and
take the defaults 1000 / 100 / `"sentence"` inside `chunkText`. -/
structure ChunkingOptions where
  maxChunkSize : Option ℤ
  overlap : Option ℤ
  strategy : Option ChunkStrategy

/-- `VectorService.chunkText` (vector.ts lines 48–69).  The `fixed` branch
(also the `default` arm of the source's `switch`) is fuel-limited; `none`
means its loop did not finish within `fuel` iterations. -/
def chunkText (fuel : ℕ) (text : List Char) (options : ChunkingOptions) :
    Option (List (List Char)) :=
  let maxChunkSize := options.maxChunkSize.getD 1000
  let overlap := options.overlap.getD 100
  let strategy := options.strategy.getD .sentence
  let cleanText := normalizeWs text
  if cleanText = [] then some []
  else
    match strategy with
    | .sentence => some (chunkBySentence cleanText maxChunkSize overlap)
    | .semantic => some (chunkBySemantic cleanText maxChunkSize overlap)
    | .fixed => chunkByFixed fuel cleanText maxChunkSize overlap

/-! ## Cosine similarity and search (`vector.ts`) -/

/-- The `dotProduct` accumulator of `VectorService.cosineSimilarity`
(vector.ts lines 236–244): `Σ a[i]*b[i]` over the common indices (the
source loops over `a.length` after checking `a.length === b.length`). -/
def dotProduct (a b : List ℚ) : ℚ :=
  (List.zipWith (· * ·) a b).sum

/-- The `normA` / `normB` accumulators of `VectorService.cosineSimilarity`:
`Σ v[i]*v[i]`. -/
def sumSq (a : List ℚ) : ℚ :=
  (a.map (fun x => x * x)).sum

/-- `VectorService.cosineSimilarity` (vector.ts lines 233–247):

    if (a.length !== b.length) return 0;
    ... return dotProduct / (Math.sqrt(normA) * Math.sqrt(normB));

The function is total — it never throws.  When either vector has zero
magnitude the JavaScript division is `0/0 = NaN`; `NaN` is modelled as
`none`.  In every other case the result is the real number the source
computes (IEEE rounding aside). -/
noncomputable def cosineSimilarity (a b : List ℚ) : Option ℝ :=
  if a.length ≠ b.length then some 0
  else if sumSq a = 0 ∨ sumSq b = 0 then none
  else some ((dotProduct a b : ℝ) / (Real.sqrt (sumSq a) * Real.sqrt (sumSq b)))

/-- A `Chunk` as consumed by `VectorService.search` (vector.ts lines 3–14):
the `metadata` record is carried opaquely by the source and is irrelevant to
search, so it is omitted here; `embedding` is optional. -/
structure Chunk where
  id : String
  content : String
  embedding : Option (List ℚ)

/-- `this.cosineSimilarity(queryEmbedding, chunk.embedding!)` for a chunk
that passed the `filter(c => c.embedding)` (vector.ts line 263). -/
noncomputable def searchScore (q : List ℚ) (c : Chunk) : Option ℝ :=
  match c.embedding with
  | some e => cosineSimilarity q e
  | none => none

/-- The numeric score used by the sort comparator
`(a, b) => b.score - a.score` (vector.ts line 265).  A `NaN` score (`none`)
is given the placeholder value 0: with `NaN` the JavaScript comparator is
inconsistent and the engine's ordering is unspecified, so every ordering
statement below assumes all scores are defined. -/
noncomputable def scoreVal (q : List ℚ) (c : Chunk) : ℝ :=
  (searchScore q c).getD 0

/-- Stable descending insertion on `(chunk, score)` pairs: an element is
placed before the first element of strictly smaller or equal-but-later
score, i.e. after every earlier element of greater-or-equal score.  This is
exactly the order produced by the ECMAScript stable `Array.prototype.sort`
with the comparator `(a, b) => b.score - a.score` when all scores are
defined. -/
noncomputable def insertPairDesc (x : Chunk × ℝ) : List (Chunk × ℝ) → List (Chunk × ℝ)
  | [] => [x]
  | y :: ys => if y.2 ≤ x.2 then x :: y :: ys else y :: insertPairDesc x ys

/-- Stable descending sort of scored chunks, modelling
`.sort((a, b) => b.score - a.score)` (vector.ts line 265). -/
noncomputable def sortPairsDesc : List (Chunk × ℝ) → List (Chunk × ℝ)
  | [] => []
  | x :: xs => insertPairDesc x (sortPairsDesc xs)

/-- `VectorService.search` (vector.ts lines 252–269), with the query
embedding (the result of the external `generateEmbedding` call) passed as a
parameter:

    chunks.filter(c => c.embedding)
          .map(chunk => ({ chunk, score: cosineSimilarity(q, emb) }))
          .sort((a, b) => b.score - a.score)
          .slice(0, topK)        // topK defaults to 5
          .map(s => s.chunk)
-/
noncomputable def search (q : List ℚ) (chunks : List Chunk) (topK : ℕ := 5) :
    List Chunk :=
  let scored := (chunks.filter (fun c => c.embedding.isSome)).map
    (fun c => (c, scoreVal q c))
  ((sortPairsDesc scored).take topK).map Prod.fst

/-- Index-tagging `[(n, l₀), (n+1, l₁), …]`, used to make "ties keep the
original input order" expressible as sorting by a total strict order. -/
def tagFrom (n : ℕ) : List Chunk → List (ℕ × Chunk)
  | [] => []
  | x :: xs => (n, x) :: tagFrom (n + 1) xs

/-- The spec-side ranking order (section 4.2 of the specification):
strictly greater score first, ties broken by smaller original index. -/
noncomputable def specRank (q : List ℚ) (a b : ℕ × Chunk) : Prop :=
  scoreVal q b.2 < scoreVal q a.2 ∨
    (scoreVal q a.2 = scoreVal q b.2 ∧ a.1 < b.1)

/-- Insertion sort by the spec-side ranking order. -/
noncomputable def insertTag (q : List ℚ) (x : ℕ × Chunk) :
    List (ℕ × Chunk) → List (ℕ × Chunk)
  | [] => [x]
  | y :: ys =>
    if scoreVal q y.2 < scoreVal q x.2 ∨
        (scoreVal q x.2 = scoreVal q y.2 ∧ x.1 < y.1) then x :: y :: ys
    else y :: insertTag q x ys

/-- Sort by the spec-side ranking order. -/
noncomputable def sortTagged (q : List ℚ) : List (ℕ × Chunk) → List (ℕ × Chunk)
  | [] => []
  | x :: xs => insertTag q x (sortTagged q xs)

/-- Modelled from the spec (section 4.2): "filters candidate chunks to
those with a vector, scores each by cosine similarity, sorts descending,
truncates to `topK` (default 5).  Ties broken by original order (stable
sort)."  The chunks that carry a vector are tagged with their original
position and arranged by the total strict order `specRank` — score
descending, original position ascending — which is exactly "descending
score with ties in input order". -/
noncomputable def searchSpec (q : List ℚ) (chunks : List Chunk) (topK : ℕ := 5) :
    List Chunk :=
  let kept := chunks.filter (fun c => c.embedding.isSome)
  ((sortTagged q (tagFrom 0 kept)).take topK).map Prod.snd

/-! ## Relation extractor and graph cache (`GraphRAGStrategy`, `models.ts`) -/

/-- An entity pushed by `GraphRAGStrategy.execute`:
`{ name, entityType }`. -/
structure GEntity where
  name : String
  entityType : String
deriving DecidableEq

/-- A relationship pushed by `GraphRAGStrategy.execute`:
`{ from, to, relationType }` (`from`/`to` are named `src`/`dst` here because
`from` is reserved in Lean). -/
structure GRel where
  src : String
  dst : String
  relationType : String
deriving DecidableEq

/-- The per-session `GraphCache` document (models.ts): its `entities` and
`relationships` arrays. -/
structure GraphCacheEntry where
  entities : List GEntity
  relationships : List GRel
deriving DecidableEq

/-- One `Map.set(e.name, e)` step of the entity deduplication
(GraphRAGStrategy lines 109–110): a JavaScript `Map` keeps the first
insertion position of a key and overwrites its value. -/
def jsMapSet (m : List GEntity) (e : GEntity) : List GEntity :=
  if m.any (fun x => x.name = e.name) then
    m.map (fun x => if x.name = e.name then e else x)
  else m ++ [e]

/-- `graphEntities.forEach(e => uniqueEntitiesMap.set(e.name, e));
Array.from(uniqueEntitiesMap.values())` (GraphRAGStrategy lines 109–111):
deduplicate by name, keeping the first position and the last value of each
name. -/
def dedupeEntities (es : List GEntity) : List GEntity :=
  es.foldl jsMapSet []

/-- JavaScript `arr.slice(-n)` for `n ≥ 1`: the last `min n (length arr)`
elements. -/
def takeLast (n : ℕ) (l : List GRel) : List GRel :=
  l.drop (l.length - n)

/-- The cache write of `GraphRAGStrategy.execute`
(src/unnamed/part_006 lines 108–128), reached when a session id is present
and at least one relationship was generated:

    const uniqueEntities = Array.from(uniqueEntitiesMap.values()).slice(0, 100);
    if (existing) {
      const existingNames = new Set(existing.entities.map(e => e.name));
      existing.entities = [...existing.entities,
                           ...uniqueEntities.filter(e => !existingNames.has(e.name))];
      existing.relationships = [...existing.relationships, ...graphRelationships].slice(-500);
    } else {
      GraphCache.create({ entities: uniqueEntities,
                          relationships: graphRelationships.slice(0, 500) });
    }
-/
def mergeGraphCache (existing : Option GraphCacheEntry)
    (ents : List GEntity) (rels : List GRel) : GraphCacheEntry :=
  let uniqueEntities := (dedupeEntities ents).take 100
  match existing with
  | some cache =>
    let existingNames := cache.entities.map (fun e => e.name)
    let newEntities := uniqueEntities.filter (fun e => e.name ∉ existingNames)
    { entities := cache.entities ++ newEntities
      relationships := takeLast 500 (cache.relationships ++ rels) }
  | none =>
    { entities := uniqueEntities
      relationships := rels.take 500 }

/-- A parsed sample row: a JavaScript object with string-valued fields,
as produced by `JSON.parse(f.sampleData)` for tabular uploads.  (Cells of
other JSON types are outside this model; the claims are about string
cells.) -/
abbrev Row : Type := List (String × String)

/-- `row[col]`: property lookup on a parsed row object. -/
def rowGet (row : Row) (k : String) : Option String :=
  (row.find? (fun p => p.1 = k)).map (fun p => p.2)

/-- JavaScript truthiness of a string cell: present and non-empty
(the `if (!subjectVal)` / `if (attrVal)` guards,
src/unnamed/part_006 lines 46 and 52). -/
def cellTruthy : Option String → Bool
  | none => false
  | some v => v ≠ ""

/-- `c.toLowerCase()` — ASCII case folding suffices for the claims. -/
def lowerStr (s : String) : String :=
  ⟨s.data.map Char.toLower⟩

/-- Is `needle` a contiguous substring of `hay`? (JavaScript
`String.prototype.includes`). -/
def strIncludes : List Char → List Char → Bool
  | _, [] => false
  | needle, c :: rest => needle.isPrefixOf (c :: rest) || strIncludes needle rest

/-- `hay.includes(needle)` including the empty-needle case. -/
def jsIncludes (hay needle : String) : Bool :=
  needle.data.isEmpty || strIncludes needle.data hay.data

/-- The subject-column predicate
`c.toLowerCase().includes("id") || c.toLowerCase().includes("name") ||
c.toLowerCase().includes("title")` (src/unnamed/part_006 line 41). -/
def isSubjectColName (c : String) : Bool :=
  jsIncludes (lowerStr c) "id" || jsIncludes (lowerStr c) "name" ||
  jsIncludes (lowerStr c) "title"

/-- `file.columns.find(...) || file.columns[0]`
(src/unnamed/part_006 line 41).  (The `find` can only return a non-empty
string, so JavaScript truthiness of its result is plain presence.) -/
def subjectColumn (cols : List String) : String :=
  match cols.find? isSubjectColName with
  | some c => c
  | none => cols.headD ""

/-- The per-row pushes of `GraphRAGStrategy.execute`
(src/unnamed/part_006 lines 44–68), producing, in push order, the
`relations` context lines, the `graphEntities` and the
`graphRelationships` contributed by one sample row. -/
def rowPushes (subjectCol : String) (attributeCols : List String) (row : Row) :
    List String × List GEntity × List GRel :=
  match rowGet row subjectCol with
  | none => ([], [], [])
  | some sv =>
    if sv = "" then ([], [], [])
    else
      let hits := attributeCols.filterMap (fun attrCol =>
        match rowGet row attrCol with
        | none => none
        | some v => if v = "" then none else some (attrCol, v))
      (hits.map (fun h => sv ++ " → " ++ h.1 ++ " → " ++ h.2),
       ⟨sv, subjectCol⟩ :: hits.map (fun h => (⟨h.2, h.1⟩ : GEntity)),
       hits.map (fun h => ⟨sv, h.2, h.1⟩))

/-- The row-based triple generation of `GraphRAGStrategy.execute`
(src/unnamed/part_006 lines 38–69) for one table view — the branch taken
when the file has columns and sample rows: identify the subject column,
then walk the sample rows accumulating relations, entities and
relationships. -/
def tripleGen (cols : List String) (sample : List Row) :
    List String × List GEntity × List GRel :=
  if cols.isEmpty || sample.isEmpty then ([], [], [])
  else
    let subjectCol := subjectColumn cols
    let attributeCols := cols.filter (fun c => c ≠ subjectCol)
    sample.foldl (fun acc row =>
      let p := rowPushes subjectCol attributeCols row
      (acc.1 ++ p.1, acc.2.1 ++ p.2.1, acc.2.2 ++ p.2.2)) ([], [], [])

/-- Modelled from the spec (section 4.3, triple generation): "for each
sample row, emit one entity for the subject value and, for every attribute
column with a non-empty cell, one entity for the cell value" — the entities
one row contributes. -/
def specRowEntities (cols : List String) (row : Row) : List GEntity :=
  let subj := subjectColumn cols
  match rowGet row subj with
  | none => []
  | some sv =>
    if sv = "" then []
    else
      ⟨sv, subj⟩ :: (cols.filter (fun c => c ≠ subj)).filterMap (fun a =>
        match rowGet row a with
        | none => none
        | some v => if v = "" then none else some ⟨v, a⟩)

/-- Modelled from the spec (section 4.3, triple generation): "… plus one
relationship `(subject value) —[attribute column name]→ (cell value)`" —
the relationships one row contributes. -/
def specRowRels (cols : List String) (row : Row) : List GRel :=
  let subj := subjectColumn cols
  match rowGet row subj with
  | none => []
  | some sv =>
    if sv = "" then []
    else
      (cols.filter (fun c => c ≠ subj)).filterMap (fun a =>
        match rowGet row a with
        | none => none
        | some v => if v = "" then none else some ⟨sv, v, a⟩)

/-! ## Strategy executors (`VectorStrategy.ts`, `GraphRAGStrategy`) -/

/-- One entry of a `RAGResult.sourceNodes` array
(strategies/types.ts lines 1–6). -/
structure SourceNode where
  id : String
  content : String
  nodeType : String
deriving DecidableEq

/-- `RAGResult` (strategies/types.ts lines 1–6). -/
structure RAGResult where
  answer : String
  sourceNodes : List SourceNode
  reasoningTrace : String
  executionPlan : Option (List String)
deriving DecidableEq

/-- A `FileMetadata` document as read by the strategies: its database id,
original name, optional summary, optional extracted entities, and its
`sampleData` already parsed into rows (`JSON.parse` is external; a present
value models a successful parse, `none` models an absent or unparseable
field, for which the source falls back to `[]`). -/
structure FileInfo where
  id : String
  originalName : String
  contentSummary : Option String
  extractedEntities : Option (List String)
  sampleData : Option (List Row)

/-- `f.extractedEntities.filter(e => e.startsWith("Column:"))
.map(e => e.replace("Column:", "").trim())` (src/unnamed/part_006 line 24).
On a string that starts with `"Column:"`, replacing the first occurrence of
`"Column:"` by `""` is dropping its first 7 characters. -/
def extractColumns (f : FileInfo) : List String :=
  ((f.extractedEntities.getD []).filter (fun e => e.startsWith "Column:")).map
    (fun e => (⟨trimWs (e.drop 7).data⟩ : String))

/-- The resolved per-file view `{ name, columns, sample, summary }`
(src/unnamed/part_006 lines 23–30). -/
structure DataInfo where
  name : String
  columns : List String
  sample : List Row
  summary : String

/-- The fallback pushes of `GraphRAGStrategy.execute`
(src/unnamed/part_006 lines 71–79): when a file has columns but no sample
rows, each column contributes one `contains` relation line, one
relationship, and two entities (the column, then the file). -/
def fileFallbackPushes (file : DataInfo) : List String × List GEntity × List GRel :=
  if file.sample.isEmpty && !file.columns.isEmpty then
    (file.columns.map (fun col => "File " ++ file.name ++ " → contains → " ++ col),
     (file.columns.map (fun col =>
        [(⟨col, "column"⟩ : GEntity), ⟨file.name, "file"⟩])).flatten,
     file.columns.map (fun col => ⟨file.name, col, "contains"⟩))
  else ([], [], [])

/-- Everything one file pushes into `relations` / `graphEntities` /
`graphRelationships` (src/unnamed/part_006 lines 38–80): the row-based
branch followed by the no-sample fallback branch. -/
def fileAllPushes (file : DataInfo) : List String × List GEntity × List GRel :=
  let row := tripleGen file.columns file.sample
  let fb := fileFallbackPushes file
  (row.1 ++ fb.1, row.2.1 ++ fb.2.1, row.2.2 ++ fb.2.2)

/-- `[...new Set(relations)]`: deduplication keeping first occurrences in
insertion order (src/unnamed/part_006 line 83). -/
def jsDedupStr (l : List String) : List String :=
  l.foldl (fun acc x => if x ∈ acc then acc else acc ++ [x]) []

/-- The system prompt of `GraphRAGStrategy.execute`
(src/unnamed/part_006 lines 86–96). -/
def graphSystemPrompt (uniqueRelations : List String) : String :=
  "You are a helpful Data Analyst looking at a Knowledge Graph.\n\nDATA CONTEXT:\n"
  ++ String.intercalate "\n" uniqueRelations
  ++ "\n\nRULES:\n1. Analyze the relations to answer the user\x27s query.\n2. Be CONCISE but EXPLANATORY (Max 3 paragraphs).\n3. Do NOT just list data. Explain the *patterns* or *connections* you see.\n4. If checking for specific items (e.g. \"BrandA\"), verify if they exist in the provided relations.\n5. Use natural language. Format with bullet points if helpful."

/-- `GraphRAGStrategy.execute` (src/unnamed/part_006 lines 7–144).  The
session-scoped file list (the result of the external `FileMetadata.find`),
the language model (`GeminiService.generateFast`), and the current cache
row for the session are parameters; `sessionOk` is the truthiness of
`context.sessionId`.  The result carries the updated cache row and the
number of language-model calls made. -/
def graphExecute (query : String) (sessionOk : Bool) (files : List FileInfo)
    (gen : String → String → String) (cache : Option GraphCacheEntry) :
    RAGResult × Option GraphCacheEntry × ℕ :=
  if files.isEmpty then
    ({ answer := "No data uploaded yet. Please upload files to analyze relations."
       sourceNodes := []
       reasoningTrace := "GraphRAG: No files found"
       executionPlan := none }, cache, 0)
  else
    let dataInfo : List DataInfo := files.map (fun f =>
      { name := f.originalName
        columns := extractColumns f
        sample := (f.sampleData.getD []).take 10
        summary := f.contentSummary.getD "" })
    let acc := dataInfo.foldl (fun acc file =>
      let p := fileAllPushes file
      (acc.1 ++ p.1, acc.2.1 ++ p.2.1, acc.2.2 ++ p.2.2)) ([], [], [])
    let uniqueRelations := (jsDedupStr acc.1).take 50
    let answer := gen ("Query: " ++ query ++ "\n\nAnalyze the data relations above.")
      (graphSystemPrompt uniqueRelations)
    let cache' := if sessionOk && !acc.2.2.isEmpty
      then some (mergeGraphCache cache acc.2.1 acc.2.2) else cache
    ({ answer := answer
       sourceNodes := files.map (fun f => ⟨f.id, f.originalName, "File"⟩)
       reasoningTrace := "GraphRAG: Analyzed " ++ toString uniqueRelations.length
         ++ " relations from " ++ toString files.length ++ " file(s)."
       executionPlan := none }, cache', 1)

/-- The system prompt of `VectorRAGStrategy.execute`
(VectorStrategy.ts lines 69–79, session-scoped revision), around the
serialised first data-context entry. -/
def vectorSystemPrompt (firstContext : String) : String :=
  "You are a helpful Data Analyst.\n\nDATA:\n" ++ firstContext
  ++ "\n\nRULES:\n1. Answer the query based on the data.\n2. Be CONCISE but EXPLANATORY (Max 3 paragraphs).\n3. Connect the dots and explain \"why\" if possible.\n4. Do not just list facts; provide synthesis.\n5. If not found, say \"I couldn\x27t find that information in the documents.\""

/-- `VectorRAGStrategy.execute` (VectorStrategy.ts lines 46–95,
session-scoped revision).  `stringify` models
`JSON.stringify(dataContext[0], null, 2)`; `gen` models
`GeminiService.generateFast`.  The second component counts language-model
calls. -/
def vectorExecute (query : String) (files : List FileInfo)
    (stringify : String × String × List Row → String)
    (gen : String → String → String) : RAGResult × ℕ :=
  if files.isEmpty then
    ({ answer := "No documents uploaded. Please upload files first."
       sourceNodes := []
       reasoningTrace := "VectorRAG: No files"
       executionPlan := none }, 0)
  else
    let dataContext := files.map (fun f =>
      (f.originalName, f.contentSummary.getD "", (f.sampleData.getD []).take 5))
    let systemPrompt := vectorSystemPrompt (stringify (dataContext.headD ("", "", [])))
    ({ answer := gen query systemPrompt
       sourceNodes := files.map (fun f => ⟨f.id, f.originalName, "Document"⟩)
       reasoningTrace := "VectorRAG: Analyzed " ++ toString files.length ++ " file(s)"
       executionPlan := none }, 1)

/-! ## Router (`ragRouter.ts`) -/

/-- The keys of the router's `strategies` record (ragRouter.ts lines 8–13).
`Advanced` and `MultiModal` both hold `VectorRAGStrategy` instances
(Similarity-Retrieval); `MultiModal` is a declared alias. -/
inductive StrategyKey
  | GraphRAG
  | Advanced
  | Agentic
  | MultiModal
deriving DecidableEq

/-- The routing decision returned by `GeminiService.routeQuery`:
`{ strategy, reasoning, plan }`.  `strategy` is `none` when the decision
object lacks the field. -/
structure RouteDecision where
  strategy : Option String
  reasoning : String
  plan : List String

/-- The property names an object literal inherits from
`Object.prototype` (including the Annex B accessors present in Node):
looking any of these up on the `strategies` record returns a truthy
inherited function or object instead of `undefined`. -/
def objectProtoKeys : List String :=
  ["constructor", "hasOwnProperty", "isPrototypeOf", "propertyIsEnumerable",
   "toLocaleString", "toString", "valueOf", "__defineGetter__",
   "__defineSetter__", "__lookupGetter__", "__lookupSetter__", "__proto__"]

/-- The outcome of resolving `this.strategies[strategyKey] ||
this.strategies.Advanced` and calling `.execute` on it: either one of the
registered executors runs, or — when the bracket lookup found a truthy
member inherited from `Object.prototype`, so that the `||` fallback never
fired — `strategy.execute` is not a function and the call throws a
`TypeError`. -/
inductive Dispatched
  | exec : StrategyKey → Dispatched
  | protoTypeError : Dispatched
deriving DecidableEq

/-- `this.strategies[strategyKey] || this.strategies.Advanced`
(ragRouter.ts line 29): bracket lookup on the four-key object literal.  An
own key selects its executor; a name inherited from `Object.prototype` is
truthy, skips the `||` fallback, and leads to a `TypeError` at the
`.execute` call; every other (or missing) name yields `undefined` and falls
back to `Advanced`. -/
def dispatch : Option String → Dispatched
  | some n =>
    if n = "GraphRAG" then .exec .GraphRAG
    else if n = "Advanced" then .exec .Advanced
    else if n = "Agentic" then .exec .Agentic
    else if n = "MultiModal" then .exec .MultiModal
    else if n ∈ objectProtoKeys then .protoTypeError
    else .exec .Advanced
  | none => .exec .Advanced

/-- The value `routeAndExecute` resolves: `RAGResult & { strategyUsed }`
plus the fields it writes (ragRouter.ts lines 35–40). -/
structure RouterResult where
  answer : String
  sourceNodes : List SourceNode
  reasoningTrace : String
  executionPlan : Option (List String)
  strategyUsed : Option String
deriving DecidableEq

/-- JavaScript string interpolation of a possibly-`undefined` value:
`` `${decision.strategy}` `` renders a missing field as `"undefined"`. -/
def optShow : Option String → String
  | some s => s
  | none => "undefined"

/-- `RAGRouterService.routeAndExecute` (ragRouter.ts lines 21–41), with the
classification decision (the result of the external `routeQuery` call) and
the executors' behaviour passed as parameters.  `none` models the run that
throws a `TypeError` because the strategy lookup resolved to an inherited
`Object.prototype` member whose `.execute` is not a function:

    const strategy = this.strategies[strategyKey] || this.strategies.Advanced;
    const result = await strategy.execute(query, {...});
    return {
      ...result,
      strategyUsed: decision.strategy,
      reasoningTrace: `[ROUTER] Decision: ${decision.strategy} because "${decision.reasoning}"\n`
        + result.reasoningTrace,
      executionPlan: decision.plan
    };
-/
def routeAndExecute (decision : RouteDecision) (exec : StrategyKey → RAGResult) :
    Option RouterResult :=
  match dispatch decision.strategy with
  | .protoTypeError => none
  | .exec key =>
    let result := exec key
    some
      { answer := result.answer
        sourceNodes := result.sourceNodes
        strategyUsed := decision.strategy
        reasoningTrace := "[ROUTER] Decision: " ++ optShow decision.strategy
          ++ " because \"" ++ decision.reasoning ++ "\"\n" ++ result.reasoningTrace
        executionPlan := some decision.plan }

/-- A concrete executor family with distinguishable results, used to
exhibit concrete router behaviour. -/
def execProbe : StrategyKey → RAGResult
  | .GraphRAG =>
    { answer := "graph answer", sourceNodes := []
      reasoningTrace := "GraphRAG: trace", executionPlan := none }
  | .Advanced =>
    { answer := "vector answer", sourceNodes := [⟨"f1", "doc.txt", "Document"⟩]
      reasoningTrace := "VectorRAG: trace", executionPlan := none }
  | .Agentic =>
    { answer := "agentic answer", sourceNodes := []
      reasoningTrace := "Agentic: trace", executionPlan := some ["Analyze"] }
  | .MultiModal =>
    { answer := "multimodal answer", sourceNodes := []
      reasoningTrace := "MultiModal: trace", executionPlan := none }

/-! ## Theorems.

Each claim `Cn` of the specification review is settled by one theorem named
below; shared helper lemmas precede them. -/

/-- C6: for every query against a session with no files, the
Similarity-Retrieval executor and the Relational-Graph executor each return
their fixed "no data" answer with an empty `sourceNodes` list, leave the
graph cache untouched, and make no language-model call (the call counter
is 0). -/
theorem empty_session_fixed_answers (query : String) (sessionOk : Bool)
    (stringify : String × String × List Row → String)
    (gen : String → String → String) (cache : Option GraphCacheEntry) :
    vectorExecute query [] stringify gen =
      ({ answer := "No documents uploaded. Please upload files first."
         sourceNodes := []
         reasoningTrace := "VectorRAG: No files"
         executionPlan := none }, 0) ∧
    graphExecute query sessionOk [] gen cache =
      ({ answer := "No data uploaded yet. Please upload files to analyze relations."
         sourceNodes := []
         reasoningTrace := "GraphRAG: No files found"
         executionPlan := none }, cache, 0) :=
  ⟨rfl, rfl⟩

/-- C9: `routeAndExecute` passes the executing strategy's `answer` and
`sourceNodes` through unchanged, sets `strategyUsed` to the classifier's
strategy string and `executionPlan` to the classifier's plan, and replaces
`reasoningTrace` by its own decision line followed by the executor's trace;
when the decision strategy and rationale contain no newline, that prefix is
exactly one line. -/
theorem routeAndExecute_frame (d : RouteDecision) (exec : StrategyKey → RAGResult)
    (key : StrategyKey) (hk : dispatch d.strategy = Dispatched.exec key) :
    ∃ r : RouterResult, routeAndExecute d exec = some r ∧
      r.answer = (exec key).answer ∧
      r.sourceNodes = (exec key).sourceNodes ∧
      r.reasoningTrace =
        "[ROUTER] Decision: " ++ optShow d.strategy ++ " because \"" ++ d.reasoning
          ++ "\"\n" ++ (exec key).reasoningTrace ∧
      r.strategyUsed = d.strategy ∧
      r.executionPlan = some d.plan ∧
      ('\n' ∉ (optShow d.strategy).data → '\n' ∉ d.reasoning.data →
        ∃ line : List Char, '\n' ∉ line ∧
          r.reasoningTrace.data =
            line ++ '\n' :: (exec key).reasoningTrace.data) := by
  have hre : routeAndExecute d exec = some
      ⟨(exec key).answer, (exec key).sourceNodes,
       "[ROUTER] Decision: " ++ optShow d.strategy ++ " because \"" ++ d.reasoning
         ++ "\"\n" ++ (exec key).reasoningTrace,
       some d.plan, d.strategy⟩ := by
    unfold routeAndExecute
    rw [hk]
  refine ⟨_, hre, rfl, rfl, rfl, rfl, rfl, ?_⟩
  intro hs hr
  refine ⟨("[ROUTER] Decision: " ++ optShow d.strategy ++ " because \""
    ++ d.reasoning ++ "\"").data, ?_, ?_⟩
  · intro hmem
    simp only [String.data_append] at hmem
    rcases List.mem_append.mp hmem with hmem | hmem
    · rcases List.mem_append.mp hmem with hmem | hmem
      · rcases List.mem_append.mp hmem with hmem | hmem
        · rcases List.mem_append.mp hmem with hmem | hmem
          · exact absurd hmem (by decide)
          · exact hs hmem
        · exact absurd hmem (by decide)
      · exact hr hmem
    · exact absurd hmem (by decide)
  · show ("[ROUTER] Decision: " ++ optShow d.strategy ++ " because \"" ++ d.reasoning
      ++ "\"\n" ++ (exec key).reasoningTrace).data = _
    simp [String.data_append]

/-- Witness for `routeAndExecute_frame` at a concrete decision and the
probe executors. -/
theorem routeAndExecute_frame_witness :
    dispatch (some "GraphRAG") = Dispatched.exec StrategyKey.GraphRAG ∧
    ∃ r : RouterResult,
      routeAndExecute ⟨some "GraphRAG", "relational query", ["Step 1"]⟩
        execProbe = some r ∧
      r.strategyUsed = some "GraphRAG" ∧
      (∃ line : List Char, '\n' ∉ line ∧
        r.reasoningTrace.data =
          line ++ '\n' :: (execProbe StrategyKey.GraphRAG).reasoningTrace.data) := by
  rcases routeAndExecute_frame ⟨some "GraphRAG", "relational query", ["Step 1"]⟩
      execProbe StrategyKey.GraphRAG (by decide) with
    ⟨r, h1, _, _, _, h5, _, h7⟩
  exact ⟨by decide, r, h1, h5, h7 (by decide) (by decide)⟩

/-- C1, counterexample.  Two independent refutations of the original
claim on concrete unrecognized strategy names.  (1) `"Bogus"`: the router
does run the `Advanced` (Similarity-Retrieval) executor, but the returned
`strategyUsed` is `"Bogus"` — not `"Advanced"` — so the fallback is not
observable there.  (2) `"toString"`: the bracket lookup finds the inherited
`Object.prototype.toString`, which is truthy, so the `|| Advanced` fallback
never fires and `strategy.execute` throws a `TypeError` — the router does
not dispatch to the Advanced executor at all (no result). -/
theorem router_fallback_counterexample :
    dispatch (some "Bogus") = Dispatched.exec StrategyKey.Advanced ∧
    (routeAndExecute ⟨some "Bogus", "r", []⟩ execProbe).map (fun r => r.answer) =
      some (execProbe StrategyKey.Advanced).answer ∧
    (routeAndExecute ⟨some "Bogus", "r", []⟩ execProbe).map (fun r => r.strategyUsed) =
      some (some "Bogus") ∧
    (routeAndExecute ⟨some "Bogus", "r", []⟩ execProbe).map (fun r => r.strategyUsed) ≠
      some (some "Advanced") ∧
    dispatch (some "toString") = Dispatched.protoTypeError ∧
    routeAndExecute ⟨some "toString", "r", []⟩ execProbe = none := by
  refine ⟨by decide, by decide, by decide, by decide, by decide, by decide⟩

/-- C1, amended: for every classification decision whose strategy name is
missing, or is neither one of the four registered keys nor a property name
inherited from `Object.prototype`, `routeAndExecute` runs the `Advanced`
(Similarity-Retrieval) executor — its `answer` and `sourceNodes` are the
`Advanced` executor's — while `strategyUsed` carries the classifier's
original strategy field verbatim (the fallback is observable in the
reasoning trace, not in `strategyUsed`).  For an `Object.prototype`
property name the bracket lookup is truthy, the fallback never fires, and
the `.execute` call throws a `TypeError`: the router produces no result at
all. -/
theorem router_fallback_amended :
    (∀ (d : RouteDecision) (exec : StrategyKey → RAGResult),
      (∀ s, d.strategy = some s →
        s ≠ "GraphRAG" ∧ s ≠ "Advanced" ∧ s ≠ "Agentic" ∧ s ≠ "MultiModal" ∧
        s ∉ objectProtoKeys) →
      dispatch d.strategy = Dispatched.exec StrategyKey.Advanced ∧
      ∃ r : RouterResult, routeAndExecute d exec = some r ∧
        r.answer = (exec StrategyKey.Advanced).answer ∧
        r.sourceNodes = (exec StrategyKey.Advanced).sourceNodes ∧
        r.strategyUsed = d.strategy) ∧
    (∀ (d : RouteDecision) (exec : StrategyKey → RAGResult) (s : String),
      d.strategy = some s → s ∈ objectProtoKeys →
      dispatch d.strategy = Dispatched.protoTypeError ∧
      routeAndExecute d exec = none) := by
  constructor
  · intro d exec h
    have hd : dispatch d.strategy = Dispatched.exec StrategyKey.Advanced := by
      match hs : d.strategy with
      | none => rfl
      | some s =>
        obtain ⟨h1, h2, h3, h4, h5⟩ := h s hs
        simp [dispatch, h1, h2, h3, h4, h5]
    refine ⟨hd, ?_⟩
    have hre : routeAndExecute d exec = some
        ⟨(exec StrategyKey.Advanced).answer, (exec StrategyKey.Advanced).sourceNodes,
         "[ROUTER] Decision: " ++ optShow d.strategy ++ " because \"" ++ d.reasoning
           ++ "\"\n" ++ (exec StrategyKey.Advanced).reasoningTrace,
         some d.plan, d.strategy⟩ := by
      unfold routeAndExecute
      rw [hd]
    exact ⟨_, hre, rfl, rfl, rfl⟩
  · intro d exec s hs hmem
    have hne : ∀ t ∈ objectProtoKeys,
        t ≠ "GraphRAG" ∧ t ≠ "Advanced" ∧ t ≠ "Agentic" ∧ t ≠ "MultiModal" := by
      decide
    obtain ⟨h1, h2, h3, h4⟩ := hne s hmem
    have hd : dispatch d.strategy = Dispatched.protoTypeError := by
      rw [hs]
      simp [dispatch, h1, h2, h3, h4, hmem]
    refine ⟨hd, ?_⟩
    unfold routeAndExecute
    rw [hd]

/-- Witness for `router_fallback_amended`: the unregistered,
non-prototype name `"SomethingElse"` falls back to the `Advanced`
executor, while the prototype name `"toString"` makes the run throw. -/
theorem router_fallback_amended_witness :
    dispatch (some "SomethingElse") = Dispatched.exec StrategyKey.Advanced ∧
    routeAndExecute ⟨some "toString", "x", []⟩ execProbe = none :=
  ⟨(router_fallback_amended.1 ⟨some "SomethingElse", "x", ["p"]⟩ execProbe
      (by intro s hs; cases hs;
          exact ⟨by decide, by decide, by decide, by decide, by decide⟩)).1,
   (router_fallback_amended.2 ⟨some "toString", "x", []⟩ execProbe "toString"
      rfl (by decide)).2⟩

/-- The accumulator fold of `tripleGen` appends each row's pushes, so it is
the flat map of the per-row pushes. -/
theorem tripleGen_foldl_eq (subj : String) (attrs : List String) :
    ∀ (sample : List Row) (a : List String) (b : List GEntity) (c : List GRel),
      sample.foldl (fun acc row =>
        let p := rowPushes subj attrs row
        (acc.1 ++ p.1, acc.2.1 ++ p.2.1, acc.2.2 ++ p.2.2)) (a, b, c) =
      (a ++ sample.flatMap (fun r => (rowPushes subj attrs r).1),
       b ++ sample.flatMap (fun r => (rowPushes subj attrs r).2.1),
       c ++ sample.flatMap (fun r => (rowPushes subj attrs r).2.2))
  | [], a, b, c => by simp
  | row :: rest, a, b, c => by
    simp only [List.foldl_cons, List.flatMap_cons]
    rw [tripleGen_foldl_eq subj attrs rest]
    simp [List.append_assoc]

/-- The entity pushes of one row coincide with the spec-side description. -/
theorem rowPushes_entities_eq_spec (cols : List String) (row : Row) :
    (rowPushes (subjectColumn cols)
      (cols.filter (fun c => c ≠ subjectColumn cols)) row).2.1 =
    specRowEntities cols row := by
  simp only [rowPushes, specRowEntities]
  cases hg : rowGet row (subjectColumn cols) with
  | none => simp
  | some sv =>
    by_cases hsv : sv = ""
    · simp [hsv]
    · simp only [hsv, ite_false, if_neg]
      congr 1
      rw [List.map_filterMap]
      apply List.filterMap_congr
      intro a _
      cases rowGet row a with
      | none => rfl
      | some v =>
        by_cases hv : v = "" <;> simp [hv]

/-- The relationship pushes of one row coincide with the spec-side
description. -/
theorem rowPushes_rels_eq_spec (cols : List String) (row : Row) :
    (rowPushes (subjectColumn cols)
      (cols.filter (fun c => c ≠ subjectColumn cols)) row).2.2 =
    specRowRels cols row := by
  simp only [rowPushes, specRowRels]
  cases hg : rowGet row (subjectColumn cols) with
  | none => simp
  | some sv =>
    by_cases hsv : sv = ""
    · simp [hsv]
    · simp only [hsv, ite_false, if_neg]
      rw [List.map_filterMap]
      apply List.filterMap_congr
      intro a _
      cases rowGet row a with
      | none => rfl
      | some v =>
        by_cases hv : v = "" <;> simp [hv]

/-- C5: for every table view with columns and sample rows, the triple
generator picks as subject the first column whose lower-cased name contains
"id", "name" or "title" (first column otherwise — `subjectColumn`), and
emits per sample row exactly one entity for the truthy subject value plus,
for each attribute column with a truthy cell, one entity for the cell value
and one relationship from the subject value to the cell value labelled by
the attribute column name (`specRowEntities` / `specRowRels`); on the
columns `[id, category, price]` with the single row
`{id: "P1", category: "Books", price: "9.99"}` this yields entities
`P1, Books, 9.99` and relationships `P1→Books : category` and
`P1→9.99 : price`. -/
theorem tripleGen_matches_spec :
    (∀ (cols : List String) (sample : List Row), cols ≠ [] → sample ≠ [] →
      (tripleGen cols sample).2.1 = sample.flatMap (specRowEntities cols) ∧
      (tripleGen cols sample).2.2 = sample.flatMap (specRowRels cols)) ∧
    subjectColumn ["id", "category", "price"] = "id" ∧
    (tripleGen ["id", "category", "price"]
        [[("id", "P1"), ("category", "Books"), ("price", "9.99")]]).2.1 =
      [⟨"P1", "id"⟩, ⟨"Books", "category"⟩, ⟨"9.99", "price"⟩] ∧
    (tripleGen ["id", "category", "price"]
        [[("id", "P1"), ("category", "Books"), ("price", "9.99")]]).2.2 =
      [⟨"P1", "Books", "category"⟩, ⟨"P1", "9.99", "price"⟩] := by
  refine ⟨?_, by decide, by decide, by decide⟩
  intro cols sample hc hs
  have hce : cols.isEmpty = false := by
    cases cols with
    | nil => exact absurd rfl hc
    | cons x xs => rfl
  have hse : sample.isEmpty = false := by
    cases sample with
    | nil => exact absurd rfl hs
    | cons x xs => rfl
  unfold tripleGen
  rw [hce, hse]
  simp only [Bool.or_self, Bool.false_eq_true, if_false]
  rw [tripleGen_foldl_eq]
  constructor
  · simp only [List.nil_append, rowPushes_entities_eq_spec]
  · simp only [List.nil_append, rowPushes_rels_eq_spec]

/-- Witness for `tripleGen_matches_spec` on a concrete one-column table. -/
theorem tripleGen_matches_spec_witness :
    (tripleGen ["name"] [[("name", "X")]]).2.1 =
      ([[("name", "X")]] : List Row).flatMap (specRowEntities ["name"]) ∧
    (tripleGen ["name"] [[("name", "X")]]).2.2 =
      ([[("name", "X")]] : List Row).flatMap (specRowRels ["name"]) :=
  tripleGen_matches_spec.1 ["name"] [[("name", "X")]] (by decide) (by decide)

/-- `jsMapSet` leaves the name sequence unchanged when the name is already
present, and appends it otherwise. -/
theorem names_jsMapSet (m : List GEntity) (e : GEntity) :
    (jsMapSet m e).map (fun x => x.name) =
      if m.any (fun x => x.name = e.name) then m.map (fun x => x.name)
      else m.map (fun x => x.name) ++ [e.name] := by
  unfold jsMapSet
  by_cases h : m.any (fun x => x.name = e.name)
  · rw [if_pos h, if_pos h, List.map_map]
    apply List.map_congr_left
    intro x _
    by_cases hx : x.name = e.name <;> simp [hx]
  · rw [if_neg h, if_neg h, List.map_append]
    rfl

/-- The entity-deduplication fold keeps the name sequence duplicate-free. -/
theorem dedupe_names_nodup :
    ∀ (es acc : List GEntity), ((acc.map (fun x => x.name)).Nodup) →
      (((es.foldl jsMapSet acc).map (fun x => x.name)).Nodup)
  | [], acc, h => h
  | e :: rest, acc, h => by
    rw [List.foldl_cons]
    apply dedupe_names_nodup rest
    rw [names_jsMapSet]
    by_cases hmem : acc.any (fun x => x.name = e.name)
    · rw [if_pos hmem]; exact h
    · rw [if_neg hmem]
      rw [List.nodup_append]
      refine ⟨h, List.nodup_singleton _, ?_⟩
      intro a ha hb
      rcases List.mem_singleton.mp hb with rfl
      rcases List.mem_map.mp ha with ⟨x, hx, hxa⟩
      rw [Bool.not_eq_true, List.any_eq_false] at hmem
      exact hmem x hx (by simp [hxa])

/-- The deduplicated incoming entity batch has duplicate-free names. -/
theorem dedupeEntities_names_nodup (es : List GEntity) :
    ((dedupeEntities es).map (fun x => x.name)).Nodup :=
  dedupe_names_nodup es [] List.nodup_nil

/-- C4, counterexample to "the relationship list equals the previous list
with the new relationships appended and then truncated to the most recent
500": on the creation merge (no cache row yet) with 501 incoming
relationships, the source keeps the FIRST 500 (`slice(0, 500)`), not the
most recent 500 — the oldest entry survives and the newest is dropped. -/
theorem mergeGraphCache_counterexample :
    (mergeGraphCache none []
      ((List.range 501).map (fun i => (⟨toString i, "v", "k"⟩ : GRel)))).relationships ≠
    takeLast 500
      ([] ++ (List.range 501).map (fun i => (⟨toString i, "v", "k"⟩ : GRel))) := by
  set_option maxRecDepth 4000 in decide

/-- C4, amended: on an update merge (a cache row exists) with duplicate-free
cached entity names, the merged entity names stay duplicate-free, the
previously cached entity records are preserved unchanged (first-writer-wins:
an incoming entity whose name is already cached is filtered out and the
cached record keeps its position and category), and the relationship list is
the previous list with the new relationships appended, truncated to the most
recent 500, oldest dropped first; on the creation merge the entity names are
duplicate-free and the relationship list is the FIRST 500 of the incoming
batch. -/
theorem mergeGraphCache_amended :
    (∀ (cache : GraphCacheEntry) (ents : List GEntity) (rels : List GRel),
      (((cache.entities.map (fun e => e.name)).Nodup) →
        (((mergeGraphCache (some cache) ents rels).entities.map
          (fun e => e.name)).Nodup)) ∧
      (mergeGraphCache (some cache) ents rels).entities.take
        cache.entities.length = cache.entities ∧
      (mergeGraphCache (some cache) ents rels).relationships =
        takeLast 500 (cache.relationships ++ rels) ∧
      (mergeGraphCache (some cache) ents rels).relationships.length ≤ 500) ∧
    (∀ (ents : List GEntity) (rels : List GRel),
      (((mergeGraphCache none ents rels).entities.map (fun e => e.name)).Nodup) ∧
      (mergeGraphCache none ents rels).relationships = rels.take 500) := by
  constructor
  · intro cache ents rels
    simp only [mergeGraphCache]
    refine ⟨?_, List.take_left _ _, trivial, ?_⟩
    · intro h
      rw [List.map_append, List.nodup_append]
      have hsub : (((dedupeEntities ents).take 100).filter
          (fun e => e.name ∉ cache.entities.map (fun x => x.name))).Sublist
          (dedupeEntities ents) :=
        (List.filter_sublist _).trans (List.take_sublist _ _)
      refine ⟨h, (hsub.map _).nodup (dedupeEntities_names_nodup ents), ?_⟩
      intro a ha hb
      rcases List.mem_map.mp hb with ⟨x, hx, hxa⟩
      have hxf := (List.mem_filter.mp hx).2
      rw [decide_eq_true_eq] at hxf
      exact hxf (hxa ▸ ha)
    · unfold takeLast
      rw [List.length_drop]
      omega
  · intro ents rels
    simp only [mergeGraphCache]
    refine ⟨?_, trivial⟩
    exact ((List.take_sublist _ _).map _).nodup (dedupeEntities_names_nodup ents)

/-- Witness for `mergeGraphCache_amended` on a concrete update merge: the
cached `A : t` record survives an incoming `A : u` unchanged, `C : w` is
appended, and the relationship list is the append truncated from the
front. -/
theorem mergeGraphCache_amended_witness :
    (((⟨[⟨"A", "t"⟩], [⟨"A", "B", "k"⟩]⟩ : GraphCacheEntry).entities.map
      (fun e => e.name)).Nodup) ∧
    (((mergeGraphCache (some ⟨[⟨"A", "t"⟩], [⟨"A", "B", "k"⟩]⟩)
        [⟨"A", "u"⟩, ⟨"C", "w"⟩] [⟨"C", "D", "k2"⟩]).entities.map
      (fun e => e.name)).Nodup) ∧
    (mergeGraphCache (some ⟨[⟨"A", "t"⟩], [⟨"A", "B", "k"⟩]⟩)
        [⟨"A", "u"⟩, ⟨"C", "w"⟩] [⟨"C", "D", "k2"⟩]).entities.take 1 =
      [⟨"A", "t"⟩] ∧
    (mergeGraphCache (some ⟨[⟨"A", "t"⟩], [⟨"A", "B", "k"⟩]⟩)
        [⟨"A", "u"⟩, ⟨"C", "w"⟩] [⟨"C", "D", "k2"⟩]).relationships =
      takeLast 500 ([⟨"A", "B", "k"⟩] ++ [⟨"C", "D", "k2"⟩]) :=
  ⟨by decide,
   ((mergeGraphCache_amended.1 ⟨[⟨"A", "t"⟩], [⟨"A", "B", "k"⟩]⟩
      [⟨"A", "u"⟩, ⟨"C", "w"⟩] [⟨"C", "D", "k2"⟩]).1 (by decide)),
   ((mergeGraphCache_amended.1 ⟨[⟨"A", "t"⟩], [⟨"A", "B", "k"⟩]⟩
      [⟨"A", "u"⟩, ⟨"C", "w"⟩] [⟨"C", "D", "k2"⟩]).2.1),
   ((mergeGraphCache_amended.1 ⟨[⟨"A", "t"⟩], [⟨"A", "B", "k"⟩]⟩
      [⟨"A", "u"⟩, ⟨"C", "w"⟩] [⟨"C", "D", "k2"⟩]).2.2.1)⟩

/-- The dot product of equal-length lists as a `Finset.range` sum. -/
theorem dotProduct_eq_sum :
    ∀ (a b : List ℚ), a.length = b.length →
      dotProduct a b = ∑ i ∈ Finset.range a.length, a.getD i 0 * b.getD i 0
  | [], [], _ => by simp [dotProduct]
  | [], y :: ys, h => by simp at h
  | x :: xs, [], h => by simp at h
  | x :: xs, y :: ys, h => by
    have h' : xs.length = ys.length := by simpa using h
    show x * y + dotProduct xs ys = _
    rw [dotProduct_eq_sum xs ys h']
    rw [List.length_cons, Finset.sum_range_succ']
    simp [add_comm]

/-- The sum of squares of a list as a `Finset.range` sum. -/
theorem sumSq_eq_sum :
    ∀ (a : List ℚ), sumSq a = ∑ i ∈ Finset.range a.length, a.getD i 0 * a.getD i 0
  | [] => by simp [sumSq]
  | x :: xs => by
    show x * x + sumSq xs = _
    rw [sumSq_eq_sum xs, List.length_cons, Finset.sum_range_succ']
    simp [add_comm]

/-- A sum of squares is nonnegative. -/
theorem sumSq_nonneg (a : List ℚ) : 0 ≤ sumSq a := by
  apply List.sum_nonneg
  intro x hx
  rcases List.mem_map.mp hx with ⟨y, _, rfl⟩
  exact mul_self_nonneg y

/-- Cauchy–Schwarz for the list dot product. -/
theorem dotProduct_sq_le (a b : List ℚ) (h : a.length = b.length) :
    dotProduct a b * dotProduct a b ≤ sumSq a * sumSq b := by
  rw [dotProduct_eq_sum a b h, sumSq_eq_sum a, sumSq_eq_sum b, ← h]
  have := Finset.sum_mul_sq_le_sq_mul_sq (Finset.range a.length)
    (fun i => a.getD i 0) (fun i => b.getD i 0)
  calc (∑ i ∈ Finset.range a.length, a.getD i 0 * b.getD i 0) *
        (∑ i ∈ Finset.range a.length, a.getD i 0 * b.getD i 0)
      = (∑ i ∈ Finset.range a.length, a.getD i 0 * b.getD i 0) ^ 2 := by ring
    _ ≤ (∑ i ∈ Finset.range a.length, a.getD i 0 ^ 2) *
          (∑ i ∈ Finset.range a.length, b.getD i 0 ^ 2) := this
    _ = (∑ i ∈ Finset.range a.length, a.getD i 0 * a.getD i 0) *
          (∑ i ∈ Finset.range a.length, b.getD i 0 * b.getD i 0) := by
        congr 1 <;> apply Finset.sum_congr rfl <;> intro i _ <;> ring

/-- C3, counterexample to "for all input vectors the result lies in
[-1, 1]": on the pair of zero vectors `[0]`, `[0]` (equal lengths, zero
magnitudes) the source divides 0 by 0 and returns `NaN` — modelled `none` —
which is not a real number in [-1, 1]. -/
theorem cosineSimilarity_counterexample :
    cosineSimilarity [0] [0] = none ∧
    ¬ ∃ r : ℝ, cosineSimilarity [0] [0] = some r ∧ -1 ≤ r ∧ r ≤ 1 := by
  have h : cosineSimilarity [0] [0] = none := by
    unfold cosineSimilarity
    norm_num [sumSq, dotProduct]
  refine ⟨h, ?_⟩
  rintro ⟨r, hr, _⟩
  rw [h] at hr
  exact Option.noConfusion hr

/-- C3, amended: `cosineSimilarity` is total (never throws); it returns
exactly 0 when the lengths differ; when the lengths agree and both vectors
have non-zero magnitude the result is a real number in [-1, 1]; when the
lengths agree and either magnitude is zero the result is `NaN` (`none`),
not a number in [-1, 1]. -/
theorem cosineSimilarity_amended :
    (∀ a b : List ℚ, a.length ≠ b.length → cosineSimilarity a b = some 0) ∧
    (∀ a b : List ℚ, a.length = b.length → sumSq a ≠ 0 → sumSq b ≠ 0 →
      ∃ r : ℝ, cosineSimilarity a b = some r ∧ -1 ≤ r ∧ r ≤ 1) ∧
    (∀ a b : List ℚ, a.length = b.length → (sumSq a = 0 ∨ sumSq b = 0) →
      cosineSimilarity a b = none) := by
  refine ⟨?_, ?_, ?_⟩
  · intro a b h
    unfold cosineSimilarity
    rw [if_pos h]
  · intro a b h ha hb
    have hA : (0 : ℚ) < sumSq a := lt_of_le_of_ne (sumSq_nonneg a) (Ne.symm ha)
    have hB : (0 : ℚ) < sumSq b := lt_of_le_of_ne (sumSq_nonneg b) (Ne.symm hb)
    have hAR : (0 : ℝ) < ((sumSq a : ℚ) : ℝ) := by exact_mod_cast hA
    have hBR : (0 : ℝ) < ((sumSq b : ℚ) : ℝ) := by exact_mod_cast hB
    have hD : (0 : ℝ) < Real.sqrt (sumSq a) * Real.sqrt (sumSq b) :=
      mul_pos (Real.sqrt_pos.mpr hAR) (Real.sqrt_pos.mpr hBR)
    refine ⟨(dotProduct a b : ℝ) / (Real.sqrt (sumSq a) * Real.sqrt (sumSq b)), ?_, ?_, ?_⟩
    · unfold cosineSimilarity
      rw [if_neg (by simpa using h), if_neg (by push_neg; exact ⟨ha, hb⟩)]
    all_goals
      have hkey : ((dotProduct a b : ℚ) : ℝ) ^ 2 ≤ ((sumSq a : ℚ) : ℝ) * ((sumSq b : ℚ) : ℝ) := by
        rw [sq]
        exact_mod_cast dotProduct_sq_le a b h
      have habs : |((dotProduct a b : ℚ) : ℝ)| ≤
          Real.sqrt (sumSq a) * Real.sqrt (sumSq b) := by
        rw [← Real.sqrt_sq_eq_abs, ← Real.sqrt_mul hAR.le]
        exact Real.sqrt_le_sqrt hkey
      have hq : |((dotProduct a b : ℚ) : ℝ) /
          (Real.sqrt (sumSq a) * Real.sqrt (sumSq b))| ≤ 1 := by
        rw [abs_div, abs_of_pos hD, div_le_one hD]
        exact habs
      rcases abs_le.mp hq with ⟨h1, h2⟩
    · exact h1
    · exact h2
  · intro a b h hz
    unfold cosineSimilarity
    rw [if_neg (by simpa using h), if_pos hz]

/-- Witness for `cosineSimilarity_amended`: a length mismatch scores 0, the
non-degenerate pair `[1, 0]`, `[0, 1]` scores inside [-1, 1], and a zero
vector against `[1, 1]` scores `NaN`. -/
theorem cosineSimilarity_amended_witness :
    cosineSimilarity [1] [] = some 0 ∧
    (∃ r : ℝ, cosineSimilarity [1, 0] [0, 1] = some r ∧ -1 ≤ r ∧ r ≤ 1) ∧
    cosineSimilarity [0, 0] [1, 1] = none :=
  ⟨cosineSimilarity_amended.1 [1] [] (by decide),
   cosineSimilarity_amended.2.1 [1, 0] [0, 1] (by decide) (by norm_num [sumSq])
     (by norm_num [sumSq]),
   cosineSimilarity_amended.2.2 [0, 0] [1, 1] (by decide) (by norm_num [sumSq])⟩

/-- Membership through `insertPairDesc`. -/
theorem mem_insertPairDesc (x : Chunk × ℝ) :
    ∀ (l : List (Chunk × ℝ)) (a : Chunk × ℝ),
      a ∈ insertPairDesc x l ↔ a = x ∨ a ∈ l
  | [], a => by simp [insertPairDesc]
  | y :: ys, a => by
    unfold insertPairDesc
    by_cases h : y.2 ≤ x.2
    · rw [if_pos h]
      simp [List.mem_cons]
    · rw [if_neg h]
      rw [List.mem_cons, List.mem_cons, mem_insertPairDesc x ys a]
      tauto

/-- Membership through `sortPairsDesc`. -/
theorem mem_sortPairsDesc :
    ∀ (l : List (Chunk × ℝ)) (a : Chunk × ℝ), a ∈ sortPairsDesc l ↔ a ∈ l
  | [], a => Iff.rfl
  | x :: xs, a => by
    unfold sortPairsDesc
    rw [mem_insertPairDesc, mem_sortPairsDesc xs a, List.mem_cons]

/-- `insertPairDesc` preserves the descending-score pairwise order. -/
theorem insertPairDesc_pairwise (x : Chunk × ℝ) :
    ∀ (l : List (Chunk × ℝ)), l.Pairwise (fun p r => r.2 ≤ p.2) →
      (insertPairDesc x l).Pairwise (fun p r => r.2 ≤ p.2)
  | [], _ => List.pairwise_singleton _ _
  | y :: ys, h => by
    unfold insertPairDesc
    rcases List.pairwise_cons.mp h with ⟨hy, hys⟩
    by_cases hc : y.2 ≤ x.2
    · rw [if_pos hc]
      refine List.pairwise_cons.mpr ⟨?_, h⟩
      intro b hb
      rcases List.mem_cons.mp hb with rfl | hb
      · exact hc
      · exact le_trans (hy b hb) hc
    · rw [if_neg hc]
      refine List.pairwise_cons.mpr ⟨?_, insertPairDesc_pairwise x ys hys⟩
      intro b hb
      rcases (mem_insertPairDesc x ys b).mp hb with rfl | hb
      · exact le_of_not_le hc
      · exact hy b hb

/-- `sortPairsDesc` orders pairs by descending score. -/
theorem sortPairsDesc_pairwise :
    ∀ (l : List (Chunk × ℝ)), (sortPairsDesc l).Pairwise (fun p r => r.2 ≤ p.2)
  | [] => List.Pairwise.nil
  | x :: xs => insertPairDesc_pairwise x _ (sortPairsDesc_pairwise xs)

/-- Membership through `insertTag`. -/
theorem mem_insertTag (qe : List ℚ) (x : ℕ × Chunk) :
    ∀ (l : List (ℕ × Chunk)) (a : ℕ × Chunk),
      a ∈ insertTag qe x l ↔ a = x ∨ a ∈ l
  | [], a => by simp [insertTag]
  | y :: ys, a => by
    unfold insertTag
    by_cases h : scoreVal qe y.2 < scoreVal qe x.2 ∨
        (scoreVal qe x.2 = scoreVal qe y.2 ∧ x.1 < y.1)
    · rw [if_pos h]
      simp [List.mem_cons]
    · rw [if_neg h]
      rw [List.mem_cons, List.mem_cons, mem_insertTag qe x ys a]
      tauto

/-- Membership through `sortTagged`. -/
theorem mem_sortTagged (qe : List ℚ) :
    ∀ (l : List (ℕ × Chunk)) (a : ℕ × Chunk), a ∈ sortTagged qe l ↔ a ∈ l
  | [], a => Iff.rfl
  | x :: xs, a => by
    unfold sortTagged
    rw [mem_insertTag, mem_sortTagged qe xs a, List.mem_cons]

/-- When the inserted element carries a tag smaller than every tag of the
list, inserting by the spec-side rank and inserting by score alone agree:
projecting the tags away maps one to the other. -/
theorem insertTag_map (qe : List ℚ) (x : ℕ × Chunk) :
    ∀ (s : List (ℕ × Chunk)), (∀ y ∈ s, x.1 < y.1) →
      (insertTag qe x s).map (fun p => (p.2, scoreVal qe p.2)) =
        insertPairDesc (x.2, scoreVal qe x.2)
          (s.map (fun p => (p.2, scoreVal qe p.2)))
  | [], _ => rfl
  | y :: ys, hlt => by
    have hxy : x.1 < y.1 := hlt y (List.mem_cons_self y ys)
    unfold insertTag
    simp only [List.map_cons]
    unfold insertPairDesc
    by_cases hsc : scoreVal qe y.2 ≤ scoreVal qe x.2
    · have hcond : scoreVal qe y.2 < scoreVal qe x.2 ∨
          (scoreVal qe x.2 = scoreVal qe y.2 ∧ x.1 < y.1) := by
        rcases lt_or_eq_of_le hsc with h | h
        · exact Or.inl h
        · exact Or.inr ⟨h.symm, hxy⟩
      rw [if_pos hcond, if_pos (show (y.2, scoreVal qe y.2).2 ≤
        (x.2, scoreVal qe x.2).2 from hsc)]
      simp
    · have hcond : ¬ (scoreVal qe y.2 < scoreVal qe x.2 ∨
          (scoreVal qe x.2 = scoreVal qe y.2 ∧ x.1 < y.1)) := by
        rintro (h | ⟨h, _⟩)
        · exact hsc h.le
        · exact hsc (le_of_eq h.symm)
      rw [if_neg hcond, if_neg (show ¬ (y.2, scoreVal qe y.2).2 ≤
        (x.2, scoreVal qe x.2).2 from hsc)]
      rw [List.map_cons]
      rw [insertTag_map qe x ys (fun z hz => hlt z (List.mem_cons_of_mem y hz))]

/-- Projecting the tags away turns the spec-side sort into the
score-descending stable insertion sort, provided the tags strictly increase
along the input. -/
theorem sortTagged_map (qe : List ℚ) :
    ∀ (t : List (ℕ × Chunk)), t.Pairwise (fun a b => a.1 < b.1) →
      (sortTagged qe t).map (fun p => (p.2, scoreVal qe p.2)) =
        sortPairsDesc (t.map (fun p => (p.2, scoreVal qe p.2)))
  | [], _ => rfl
  | x :: xs, h => by
    rcases List.pairwise_cons.mp h with ⟨hx, hxs⟩
    unfold sortTagged
    simp only [List.map_cons]
    unfold sortPairsDesc
    rw [insertTag_map qe x (sortTagged qe xs)
      (fun y hy => hx y ((mem_sortTagged qe xs y).mp hy))]
    rw [sortTagged_map qe xs hxs]

/-- Every tag produced by `tagFrom n` is at least `n`. -/
theorem tagFrom_le_tag :
    ∀ (l : List Chunk) (n : ℕ) (y : ℕ × Chunk), y ∈ tagFrom n l → n ≤ y.1
  | [], _, y, h => absurd h (List.not_mem_nil y)
  | x :: xs, n, y, h => by
    unfold tagFrom at h
    rcases List.mem_cons.mp h with rfl | h
    · exact le_refl n
    · exact le_trans (Nat.le_succ n) (tagFrom_le_tag xs (n + 1) y h)

/-- The tags produced by `tagFrom` strictly increase along the list. -/
theorem tagFrom_pairwise :
    ∀ (l : List Chunk) (n : ℕ), (tagFrom n l).Pairwise (fun a b => a.1 < b.1)
  | [], _ => List.Pairwise.nil
  | x :: xs, n => by
    unfold tagFrom
    refine List.pairwise_cons.mpr ⟨?_, tagFrom_pairwise xs (n + 1)⟩
    intro y hy
    exact lt_of_lt_of_le (Nat.lt_succ_self n) (tagFrom_le_tag xs (n + 1) y hy)

/-- Dropping the tags recovers the original list. -/
theorem tagFrom_map_snd :
    ∀ (l : List Chunk) (n : ℕ), (tagFrom n l).map (fun p => p.2) = l
  | [], _ => rfl
  | x :: xs, n => by
    unfold tagFrom
    rw [List.map_cons, tagFrom_map_snd xs (n + 1)]

/-- C7: whenever every kept chunk's cosine score is defined (no `NaN`
comparator values, under which the engine's sort order would be
unspecified), `search` returns exactly the spec-side ranking
`searchSpec` — only chunks that possess an embedding, ordered by strictly
descending cosine similarity with ties kept in original input order, and
truncated to `topK`; moreover the result length is at most `topK`, the
result is sorted by descending score, and `topK` defaults to 5. -/
theorem search_matches_spec (qe : List ℚ) (chunks : List Chunk) (k : ℕ)
    (_hdef : ∀ c ∈ chunks, c.embedding.isSome = true →
      (searchScore qe c).isSome = true) :
    search qe chunks k = searchSpec qe chunks k ∧
    (∀ c ∈ search qe chunks k, c.embedding.isSome = true) ∧
    (search qe chunks k).length ≤ k ∧
    (search qe chunks k).Pairwise (fun a b => scoreVal qe b ≤ scoreVal qe a) ∧
    search qe chunks = search qe chunks 5 := by
  have hmap : (tagFrom 0 (chunks.filter (fun c => c.embedding.isSome))).map
      (fun p => (p.2, scoreVal qe p.2)) =
      (chunks.filter (fun c => c.embedding.isSome)).map
        (fun c => (c, scoreVal qe c)) := by
    have h1 : ∀ (t : List (ℕ × Chunk)),
        t.map (fun p => ((p.2 : Chunk), scoreVal qe p.2)) =
          (t.map (fun p => p.2)).map (fun c => (c, scoreVal qe c)) := by
      intro t
      rw [List.map_map]
      rfl
    rw [h1, tagFrom_map_snd]
  have hkey : search qe chunks k = searchSpec qe chunks k := by
    simp only [search, searchSpec]
    rw [← hmap, ← sortTagged_map qe _ (tagFrom_pairwise _ 0)]
    rw [← List.map_take, List.map_map]
    rfl
  refine ⟨hkey, ?_, ?_, ?_, rfl⟩
  · intro c hc
    unfold search at hc
    rcases List.mem_map.mp hc with ⟨p, hp, rfl⟩
    have hp2 := (mem_sortPairsDesc _ p).mp (List.take_subset _ _ hp)
    rcases List.mem_map.mp hp2 with ⟨c', hc', rfl⟩
    simpa using (List.mem_filter.mp hc').2
  · unfold search
    rw [List.length_map]
    exact le_trans (List.length_take_le _ _) (le_refl _)
  · unfold search
    rw [List.pairwise_map]
    have hsorted : (List.take k (sortPairsDesc ((chunks.filter
        (fun c => c.embedding.isSome)).map (fun c => (c, scoreVal qe c))))).Pairwise
        (fun p r => r.2 ≤ p.2) :=
      (sortPairsDesc_pairwise _).sublist (List.take_sublist _ _)
    refine hsorted.imp_of_mem ?_
    intro a b ha hb hab
    have hva : a.2 = scoreVal qe a.1 := by
      have := (mem_sortPairsDesc _ a).mp (List.take_subset _ _ ha)
      rcases List.mem_map.mp this with ⟨c', _, rfl⟩
      rfl
    have hvb : b.2 = scoreVal qe b.1 := by
      have := (mem_sortPairsDesc _ b).mp (List.take_subset _ _ hb)
      rcases List.mem_map.mp this with ⟨c', _, rfl⟩
      rfl
    rw [hva, hvb] at hab
    exact hab

/-- Witness for `search_matches_spec` on a concrete query embedding and
chunk list (one embedded chunk with non-zero magnitude, one chunk without a
vector). -/
theorem search_matches_spec_witness :
    search [1] [⟨"a", "x", some [2]⟩, ⟨"b", "y", none⟩] 3 =
      searchSpec [1] [⟨"a", "x", some [2]⟩, ⟨"b", "y", none⟩] 3 ∧
    (search [1] [⟨"a", "x", some [2]⟩, ⟨"b", "y", none⟩] 3).length ≤ 3 := by
  have hdef : ∀ c ∈ [(⟨"a", "x", some [2]⟩ : Chunk), ⟨"b", "y", none⟩],
      c.embedding.isSome = true → (searchScore [1] c).isSome = true := by
    intro c hc hemb
    rcases List.mem_cons.mp hc with rfl | hc
    · show (cosineSimilarity [1] [2]).isSome = true
      unfold cosineSimilarity
      norm_num [sumSq]
    · rcases List.mem_cons.mp hc with rfl | hc
      · simp at hemb
      · exact absurd hc (List.not_mem_nil c)
  exact ⟨(search_matches_spec [1] _ 3 hdef).1,
    (search_matches_spec [1] _ 3 hdef).2.2.1⟩

/-- Once the window end has reached the text length, `start` is reset to
`length - overlap` on every iteration: with `0 < overlap < maxSize` the
`while` loop of `chunkByFixed` never exits from any in-range start. -/
theorem chunkByFixedGo_stuck (text : List Char) (maxSize overlap : ℤ)
    (ho : 0 < overlap) (_hm : overlap < maxSize) :
    ∀ (fuel : ℕ) (start : ℤ) (chunks : List (List Char)),
      start < (text.length : ℤ) →
      chunkByFixedGo text maxSize overlap fuel start chunks = none := by
  intro fuel
  induction fuel with
  | zero => intro start chunks _; rfl
  | succ n ih =>
    intro start chunks h
    simp only [chunkByFixedGo]
    rw [if_pos h]
    have hmin : min (start + maxSize) (text.length : ℤ) ≤ (text.length : ℤ) :=
      min_le_right _ _
    rw [if_neg (by omega)]
    exact ih _ _ (by omega)

/-- C2: the fixed-size chunking loop does not terminate.  On the two-
character text `"ab"` with `maxSize = 5` and `overlap = 1` — a non-empty
text with `maxSize > 0` and `0 ≤ overlap < maxSize`, squarely inside the
claim's preconditions — `chunkByFixed` runs out of any amount of fuel: the
first iteration pushes the whole text and resets `start` to
`length - overlap = 1 < length`, and every further iteration recomputes
`end = length` and `start = 1` again, pushing the final one-character slice
forever.  The window start never reaches the text length. -/
theorem chunkByFixed_infinite_loop :
    ∀ fuel : ℕ, chunkByFixed fuel ['a', 'b'] 5 1 = none := by
  intro fuel
  exact chunkByFixedGo_stuck ['a', 'b'] 5 1 (by norm_num) (by norm_num)
    fuel 0 [] (by decide)

/-- An all-whitespace input collapses to nothing or a single space. -/
theorem collapseWs_allWs : ∀ (l : List Char), (∀ c ∈ l, isJsWs c = true) →
    collapseWs l = [] ∨ collapseWs l = [' ']
  | [], _ => Or.inl rfl
  | [c], h => Or.inr (by simp [collapseWs, h c (List.mem_singleton_self c)])
  | c :: d :: rest, h => by
    have hc : isJsWs c = true := h c (List.mem_cons_self _ _)
    have hd : isJsWs d = true := h d (List.mem_cons_of_mem _ (List.mem_cons_self _ _))
    have ih := collapseWs_allWs (d :: rest) (fun x hx => h x (List.mem_cons_of_mem _ hx))
    simpa [collapseWs, hc, hd] using ih

/-- An all-whitespace input normalizes to the empty string. -/
theorem normalizeWs_allWs (l : List Char) (h : ∀ c ∈ l, isJsWs c = true) :
    normalizeWs l = [] := by
  unfold normalizeWs
  rcases collapseWs_allWs l h with h1 | h1 <;> rw [h1] <;> decide

/-- C10: for every empty-or-whitespace-only input text and every chunking
options value (and any loop fuel), `chunkText` returns the empty chunk
list: the normalized `cleanText` is empty and the function short-circuits
before any strategy runs. -/
theorem chunkText_blank_empty (fuel : ℕ) (text : List Char)
    (opts : ChunkingOptions) (h : ∀ c ∈ text, isJsWs c = true) :
    chunkText fuel text opts = some [] := by
  simp only [chunkText]
  rw [normalizeWs_allWs text h]
  simp

/-- Witness for `chunkText_blank_empty` on the text `" \n"`. -/
theorem chunkText_blank_empty_witness :
    (∀ c ∈ [' ', '\n'], isJsWs c = true) ∧
    chunkText 0 [' ', '\n'] ⟨none, none, none⟩ = some [] :=
  ⟨by decide, chunkText_blank_empty 0 [' ', '\n'] ⟨none, none, none⟩ (by decide)⟩

/-- Characters surviving whitespace collapsing are either the inserted
single spaces or non-whitespace characters of the input. -/
theorem mem_collapseWs : ∀ (l : List Char) (c : Char), c ∈ collapseWs l →
    c = ' ' ∨ (isJsWs c = false ∧ c ∈ l)
  | [], c, h => absurd h (List.not_mem_nil c)
  | [d], c, h => by
    by_cases hw : isJsWs d
    · simp [collapseWs, hw] at h
      exact Or.inl h
    · simp [collapseWs, hw] at h
      subst h
      exact Or.inr ⟨by simpa using hw, List.mem_singleton_self _⟩
  | d :: e :: rest, c, h => by
    by_cases hw : isJsWs d && isJsWs e
    · rw [show collapseWs (d :: e :: rest) = collapseWs (e :: rest) by
        simp [collapseWs, hw]] at h
      rcases mem_collapseWs (e :: rest) c h with h1 | ⟨h1, h2⟩
      · exact Or.inl h1
      · exact Or.inr ⟨h1, List.mem_cons_of_mem _ h2⟩
    · rw [show collapseWs (d :: e :: rest) =
        (if isJsWs d then ' ' else d) :: collapseWs (e :: rest) by
        simp [collapseWs, hw]] at h
      rcases List.mem_cons.mp h with rfl | h1
      · by_cases hd : isJsWs d
        · simp [hd]
        · rw [if_neg hd]
          exact Or.inr ⟨by simpa using hd, List.mem_cons_self _ _⟩
      · rcases mem_collapseWs (e :: rest) c h1 with h2 | ⟨h2, h3⟩
        · exact Or.inl h2
        · exact Or.inr ⟨h2, List.mem_cons_of_mem _ h3⟩

/-- Trimming only removes characters. -/
theorem mem_trimWs (l : List Char) (c : Char) (h : c ∈ trimWs l) : c ∈ l := by
  unfold trimWs at h
  rw [List.mem_reverse] at h
  have h1 := (List.dropWhile_suffix isJsWs).sublist.subset h
  rw [List.mem_reverse] at h1
  exact (List.dropWhile_suffix isJsWs).sublist.subset h1

/-- The normalized `cleanText` contains no line feed: every line feed of
the input is whitespace and is collapsed into a plain space. -/
theorem normalizeWs_no_newline (text : List Char) : '\n' ∉ normalizeWs text := by
  intro h
  have h1 := mem_trimWs _ _ h
  rcases mem_collapseWs text '\n' h1 with h2 | ⟨h2, _⟩
  · exact absurd h2 (by decide)
  · exact absurd h2 (by decide)

/-- `dropWhile` is idempotent. -/
theorem dropWhile_idem (p : Char → Bool) : ∀ (l : List Char),
    List.dropWhile p (List.dropWhile p l) = List.dropWhile p l
  | [] => rfl
  | c :: rest => by
    by_cases h : p c
    · simp [List.dropWhile_cons, h, dropWhile_idem p rest]
    · simp [List.dropWhile_cons, h]

/-- The head surviving a `dropWhile` fails the predicate. -/
theorem dropWhile_head_not (p : Char → Bool) :
    ∀ (l : List Char) (c : Char) (rest : List Char),
      List.dropWhile p l = c :: rest → p c = false
  | [], c, rest, h => List.noConfusion h
  | a :: l', c, rest, h => by
    by_cases ha : p a
    · rw [List.dropWhile_cons, if_pos ha] at h
      exact dropWhile_head_not p l' c rest h
    · rw [List.dropWhile_cons, if_neg ha] at h
      cases h
      simpa using ha

/-- Trimming is idempotent. -/
theorem trimWs_idem (l : List Char) : trimWs (trimWs l) = trimWs l := by
  set p := isJsWs with hp
  set m := List.dropWhile p l with hm
  have hmm : List.dropWhile p m = m := by rw [hm]; exact dropWhile_idem p l
  set u := List.dropWhile p m.reverse with hu
  have huu : List.dropWhile p u = u := by rw [hu]; exact dropWhile_idem p m.reverse
  have hr : trimWs l = u.reverse := rfl
  have hpre : u.reverse <+: m := by
    have hsuf : u <:+ m.reverse := by rw [hu]; exact List.dropWhile_suffix p
    have := List.reverse_prefix.mpr (by simpa using hsuf)
    simpa using this
  have hdropr : List.dropWhile p u.reverse = u.reverse := by
    cases hur : u.reverse with
    | nil => simp
    | cons c w =>
      rcases hpre with ⟨t, ht⟩
      rw [hur] at ht
      have hc : p c = false := dropWhile_head_not p m c (w ++ t)
        (by rw [hmm, ← ht]; simp)
      rw [List.dropWhile_cons, if_neg (by simp [hc])]
  rw [hr]
  show ((u.reverse.dropWhile p).reverse.dropWhile p).reverse = u.reverse
  rw [hdropr, List.reverse_reverse, huu]

/-- Every piece produced by the sentence splitter is made of input
characters. -/
theorem splitSentGo_chars (P : Char → Prop) :
    ∀ (b : Bool) (l cur : List Char) (acc : List (List Char)),
      (∀ c ∈ l, P c) → (∀ c ∈ cur, P c) → (∀ p ∈ acc, ∀ c ∈ p, P c) →
      ∀ p ∈ splitSentGo b l cur acc, ∀ c ∈ p, P c
  | b, [], cur, acc, _, hcur, hacc => by
    intro p hp c hc
    simp only [splitSentGo] at hp
    rcases List.mem_append.mp hp with hp | hp
    · exact hacc p hp c hc
    · rcases List.mem_singleton.mp hp with rfl
      exact hcur c (List.mem_reverse.mp hc)
  | b, ch :: rest, cur, acc, hl, hcur, hacc => by
    have hrest : ∀ c ∈ rest, P c := fun c hc => hl c (List.mem_cons_of_mem _ hc)
    simp only [splitSentGo]
    by_cases h1 : (b && isJsWs ch) = true
    · rw [if_pos h1]
      exact splitSentGo_chars P true rest cur acc hrest hcur hacc
    · rw [if_neg h1]
      by_cases h2 : (isJsWs ch && headIsEnder cur) = true
      · rw [if_pos h2]
        refine splitSentGo_chars P true rest [] (acc ++ [cur.reverse]) hrest
          (by intro c hc; exact absurd hc (List.not_mem_nil c)) ?_
        intro p hp c hc
        rcases List.mem_append.mp hp with hp | hp
        · exact hacc p hp c hc
        · rcases List.mem_singleton.mp hp with rfl
          exact hcur c (List.mem_reverse.mp hc)
      · rw [if_neg h2]
        refine splitSentGo_chars P false rest (ch :: cur) acc hrest ?_ hacc
        intro c hc
        rcases List.mem_cons.mp hc with rfl | hc
        · exact hl c (List.mem_cons_self _ _)
        · exact hcur c hc

/-- Every sentence returned by `splitSentences` is made of input
characters. -/
theorem splitSentences_chars (P : Char → Prop) (l : List Char)
    (hl : ∀ c ∈ l, P c) :
    ∀ p ∈ splitSentences l, ∀ c ∈ p, P c := by
  intro p hp
  have hp' := (List.filter_sublist _).subset hp
  exact splitSentGo_chars P false l [] [] hl
    (fun c hc => absurd hc (List.not_mem_nil c))
    (fun q hq => absurd hq (List.not_mem_nil q)) p hp'

/-- Every word produced by the space splitter is made of input
characters. -/
theorem splitOnSpaceGo_chars (P : Char → Prop) :
    ∀ (l cur : List Char), (∀ c ∈ l, P c) → (∀ c ∈ cur, P c) →
      ∀ p ∈ splitOnSpaceGo l cur, ∀ c ∈ p, P c
  | [], cur, _, hcur => by
    intro p hp c hc
    rcases List.mem_singleton.mp hp with rfl
    exact hcur c (List.mem_reverse.mp hc)
  | ch :: rest, cur, hl, hcur => by
    have hrest : ∀ c ∈ rest, P c := fun c hc => hl c (List.mem_cons_of_mem _ hc)
    simp only [splitOnSpaceGo]
    by_cases h : ch = ' '
    · rw [if_pos h]
      intro p hp c hc
      rcases List.mem_cons.mp hp with rfl | hp
      · exact hcur c (List.mem_reverse.mp hc)
      · exact splitOnSpaceGo_chars P rest [] hrest
          (fun c hc => absurd hc (List.not_mem_nil c)) p hp c hc
    · rw [if_neg h]
      refine splitOnSpaceGo_chars P rest (ch :: cur) hrest ?_
      intro c hc
      rcases List.mem_cons.mp hc with rfl | hc
      · exact hl c (List.mem_cons_self _ _)
      · exact hcur c hc

/-- Joining words with single spaces only adds spaces. -/
theorem joinSpace_chars (P : Char → Prop) (hP : P ' ') :
    ∀ (ps : List (List Char)), (∀ p ∈ ps, ∀ c ∈ p, P c) →
      ∀ c ∈ joinSpace ps, P c
  | [], _ => by intro c hc; exact absurd hc (List.not_mem_nil c)
  | [p], h => by
    intro c hc
    exact h p (List.mem_singleton_self p) c hc
  | p :: q :: ps, h => by
    intro c hc
    rw [show joinSpace (p :: q :: ps) = p ++ ' ' :: joinSpace (q :: ps) from rfl] at hc
    rcases List.mem_append.mp hc with hc | hc
    · exact h p (List.mem_cons_self _ _) c hc
    · rcases List.mem_cons.mp hc with rfl | hc
      · exact hP
      · exact joinSpace_chars P hP (q :: ps)
          (fun r hr => h r (List.mem_cons_of_mem _ hr)) c hc

/-- The sentence-accumulation fold only ever holds characters of the input
sentences or spaces. -/
theorem sentenceFold_chars (P : Char → Prop) (hP : P ' ') (maxSize : ℤ) :
    ∀ (ss : List (List Char)) (st : List (List Char) × List Char),
      (∀ p ∈ ss, ∀ c ∈ p, P c) →
      (∀ p ∈ st.1, ∀ c ∈ p, P c) → (∀ c ∈ st.2, P c) →
      (∀ p ∈ (ss.foldl (chunkBySentenceStep maxSize) st).1, ∀ c ∈ p, P c) ∧
      (∀ c ∈ (ss.foldl (chunkBySentenceStep maxSize) st).2, P c)
  | [], st, _, h1, h2 => ⟨h1, h2⟩
  | s :: rest, st, hs, h1, h2 => by
    rw [List.foldl_cons]
    have hsP : ∀ c ∈ s, P c := hs s (List.mem_cons_self _ _)
    refine sentenceFold_chars P hP maxSize rest _
      (fun p hp => hs p (List.mem_cons_of_mem _ hp)) ?_ ?_
    · intro p hp c hc
      unfold chunkBySentenceStep at hp
      by_cases hcond : ((st.2.length : ℤ) + (s.length : ℤ) > maxSize ∧ st.2 ≠ [])
      · rw [if_pos hcond] at hp
        rcases List.mem_append.mp hp with hp | hp
        · exact h1 p hp c hc
        · rcases List.mem_singleton.mp hp with rfl
          exact h2 c (mem_trimWs _ _ hc)
      · rw [if_neg hcond] at hp
        exact h1 p hp c hc
    · intro c hc
      unfold chunkBySentenceStep at hc
      by_cases hcond : ((st.2.length : ℤ) + (s.length : ℤ) > maxSize ∧ st.2 ≠ [])
      · rw [if_pos hcond] at hc
        rcases List.mem_append.mp hc with hc | hc
        · refine joinSpace_chars P hP _ ?_ c hc
          intro p hp
          exact splitOnSpaceGo_chars P st.2 [] h2
            (fun d hd => absurd hd (List.not_mem_nil d)) p
            (List.drop_subset _ _ hp)
        · rcases List.mem_cons.mp hc with rfl | hc
          · exact hP
          · exact hsP c hc
      · rw [if_neg hcond] at hc
        rcases List.mem_append.mp hc with hc | hc
        · rcases List.mem_append.mp hc with hc | hc
          · exact h2 c hc
          · by_cases hne : st.2 ≠ []
            · rw [if_pos hne] at hc
              rcases List.mem_singleton.mp hc with rfl
              exact hP
            · rw [if_neg hne] at hc
              exact absurd hc (List.not_mem_nil c)
        · exact hsP c hc

/-- Every chunk emitted by the sentence strategy is made of input
characters and spaces. -/
theorem chunkBySentence_chars (P : Char → Prop) (hP : P ' ')
    (text : List Char) (maxSize ov : ℤ) (ht : ∀ c ∈ text, P c) :
    ∀ p ∈ chunkBySentence text maxSize ov, ∀ c ∈ p, P c := by
  unfold chunkBySentence
  have hss := splitSentences_chars P text ht
  have hfold := sentenceFold_chars P hP maxSize (splitSentences text) ([], [])
    hss (fun p hp => absurd hp (List.not_mem_nil p))
    (fun c hc => absurd hc (List.not_mem_nil c))
  by_cases hne : trimWs ((splitSentences text).foldl
      (chunkBySentenceStep maxSize) ([], [])).2 ≠ []
  · rw [if_pos hne]
    intro p hp c hc
    rcases List.mem_append.mp hp with hp | hp
    · exact hfold.1 p hp c hc
    · rcases List.mem_singleton.mp hp with rfl
      exact hfold.2 c (mem_trimWs _ _ hc)
  · rw [if_neg hne]
    exact hfold.1

/-- A slice only contains characters of the sliced list. -/
theorem mem_jsSlice (l : List Char) (s e : ℤ) (c : Char)
    (h : c ∈ jsSlice l s e) : c ∈ l := by
  unfold jsSlice at h
  exact List.drop_subset _ _ (List.take_subset _ _ h)

/-- Every chunk a terminating fixed-size run returns is a slice of the
text: its characters belong to the text. -/
theorem chunkByFixedGo_chars (text : List Char) (maxSize overlap : ℤ) :
    ∀ (fuel : ℕ) (start : ℤ) (acc res : List (List Char)),
      (∀ ch ∈ acc, ∀ c ∈ ch, c ∈ text) →
      chunkByFixedGo text maxSize overlap fuel start acc = some res →
      ∀ ch ∈ res, ∀ c ∈ ch, c ∈ text
  | 0, start, acc, res, _, heq => Option.noConfusion heq
  | Nat.succ n, start, acc, res, hacc, heq => by
    simp only [chunkByFixedGo] at heq
    by_cases h1 : start < (text.length : ℤ)
    · rw [if_pos h1] at heq
      have hacc' : ∀ ch ∈ acc ++ [jsSlice text start
          (min (start + maxSize) (text.length : ℤ))], ∀ c ∈ ch, c ∈ text := by
        intro ch hch c hc
        rcases List.mem_append.mp hch with hch | hch
        · exact hacc ch hch c hc
        · rcases List.mem_singleton.mp hch with rfl
          exact mem_jsSlice text _ _ c hc
      by_cases h2 : (text.length : ℤ) ≤
          min (start + maxSize) (text.length : ℤ) - overlap
      · rw [if_pos h2] at heq
        cases heq
        exact hacc'
      · rw [if_neg h2] at heq
        exact chunkByFixedGo_chars text maxSize overlap n _ _ res hacc' heq
    · rw [if_neg h1] at heq
      cases heq
      exact hacc

/-- On a line-feed-free input the paragraph splitter never finds a
boundary: it returns the single accumulated piece. -/
theorem splitParasGo_no_nl : ∀ (l cur : List Char) (acc : List (List Char)),
    '\n' ∉ l → splitParasGo false l cur acc = acc ++ [cur.reverse ++ l]
  | [], cur, acc, _ => by simp [splitParasGo]
  | c :: rest, cur, acc, h => by
    have hc : ¬ (c = '\n') := fun hh => h (hh ▸ List.mem_cons_self c rest)
    have hrest : '\n' ∉ rest := fun hh => h (List.mem_cons_of_mem c hh)
    rw [splitParasGo.eq_def]
    simp only []
    rw [if_neg hc]
    rw [splitParasGo_no_nl rest (c :: cur) acc hrest]
    simp

/-- On a line-feed-free input with non-blank trim, `splitParas` returns the
whole input as its single paragraph. -/
theorem splitParas_no_nl (l : List Char) (h : '\n' ∉ l)
    (hne : trimWs l ≠ []) : splitParas l = [l] := by
  unfold splitParas
  rw [splitParasGo_no_nl l [] [] h]
  simp [hne]

/-- On a line-feed-free, already-trimmed, non-empty input, the semantic
strategy returns the whole input as one chunk, regardless of `maxSize`:
the single paragraph enters the empty buffer unconditionally and no
overflow flush can ever fire. -/
theorem chunkBySemantic_single (l : List Char) (h : '\n' ∉ l)
    (htr : trimWs l = l) (hne : l ≠ []) (maxSize ov : ℤ) :
    chunkBySemantic l maxSize ov = [l] := by
  simp only [chunkBySemantic]
  rw [splitParas_no_nl l h (by rw [htr]; exact hne)]
  rw [List.foldl_cons, List.foldl_nil]
  rw [show chunkBySemanticStep maxSize ([], []) l = ([], l) by
    unfold chunkBySemanticStep
    simp]
  rw [if_pos (by rw [htr]; exact hne)]
  rw [htr]
  rfl

/-- C8: every chunk string `chunkText` returns, under every strategy,
options value and fuel, contains no line-feed character — the whitespace
collapse that produces `cleanText` runs before any splitting; and because
the semantic strategy's blank-line / newline-before-heading boundaries can
then never match, the semantic strategy through `chunkText` always returns
the whole normalized text as a single chunk. -/
theorem chunkText_no_newline :
    (∀ (fuel : ℕ) (text : List Char) (opts : ChunkingOptions)
      (cs : List (List Char)), chunkText fuel text opts = some cs →
        ∀ ch ∈ cs, '\n' ∉ ch) ∧
    (∀ (fuel : ℕ) (text : List Char) (opts : ChunkingOptions),
      opts.strategy = some ChunkStrategy.semantic →
      chunkText fuel text opts =
        some (if normalizeWs text = [] then [] else [normalizeWs text])) := by
  have hidem : ∀ text : List Char, trimWs (normalizeWs text) = normalizeWs text :=
    fun text => trimWs_idem (collapseWs text)
  have hsem : ∀ (fuel : ℕ) (text : List Char) (maxSize ov : ℤ),
      normalizeWs text ≠ [] →
      chunkBySemantic (normalizeWs text) maxSize ov = [normalizeWs text] :=
    fun fuel text maxSize ov hne =>
      chunkBySemantic_single (normalizeWs text) (normalizeWs_no_newline text)
        (hidem text) hne maxSize ov
  constructor
  · intro fuel text opts cs heq ch hch
    simp only [chunkText] at heq
    by_cases hc : normalizeWs text = []
    · rw [if_pos hc] at heq
      cases heq
      exact absurd hch (List.not_mem_nil ch)
    · rw [if_neg hc] at heq
      intro hnl
      have hclean : ∀ c ∈ normalizeWs text, ¬ (c = '\n') := by
        intro c hcm rfl'
        exact normalizeWs_no_newline text (rfl' ▸ hcm)
      cases hstrat : opts.strategy.getD ChunkStrategy.sentence with
      | sentence =>
        rw [hstrat] at heq
        cases heq
        exact (chunkBySentence_chars (fun c => ¬ (c = '\n')) (by decide)
          (normalizeWs text) _ _ hclean ch hch '\n' hnl) rfl
      | semantic =>
        rw [hstrat] at heq
        cases heq
        rw [hsem fuel text _ _ hc] at hch
        rcases List.mem_singleton.mp hch with rfl
        exact normalizeWs_no_newline text hnl
      | fixed =>
        rw [hstrat] at heq
        have heq' : chunkByFixedGo (normalizeWs text) (opts.maxChunkSize.getD 1000)
            (opts.overlap.getD 100) fuel 0 [] = some cs := heq
        exact normalizeWs_no_newline text
          (chunkByFixedGo_chars (normalizeWs text) _ _ fuel 0 [] cs
            (fun p hp => absurd hp (List.not_mem_nil p)) heq' ch hch '\n' hnl)
  · intro fuel text opts hst
    simp only [chunkText, hst, Option.getD_some]
    by_cases hc : normalizeWs text = []
    · rw [if_pos hc, if_pos hc]
    · rw [if_neg hc, if_neg hc]
      rw [hsem fuel text _ _ hc]

/-- Witness for `chunkText_no_newline`: the default (sentence) strategy on
`"a"` yields the single chunk `"a"`, newline-free, and the semantic
strategy returns the whole normalized text as one chunk. -/
theorem chunkText_no_newline_witness :
    (∀ ch ∈ ([['a']] : List (List Char)), '\n' ∉ ch) ∧
    chunkText 1 ['a'] ⟨none, none, some ChunkStrategy.semantic⟩ =
      some (if normalizeWs ['a'] = [] then [] else [normalizeWs ['a']]) :=
  ⟨fun ch hch => chunkText_no_newline.1 1 ['a'] ⟨none, none, none⟩ [['a']]
      (by decide) ch hch,
   chunkText_no_newline.2 1 ['a'] ⟨none, none, some ChunkStrategy.semantic⟩ rfl⟩
